import Mathlib

/-!
Verification of the catalog-reconciliation pipeline of
scripts/core_translations.py: entry diffing, translation indexing,
review-catalog merging, obsolete deduplication, retrofit application and
diff-hunk noise classification, shallowly embedded in Lean.

Conventions of the embedding:
* a polib POEntry is the structure POEntry below; Python None/"" optional
  strings become Option String / String;
* Python dicts (insertion ordered, unique keys) are association lists
  manipulated only through alookup / setKey, which preserve insertion
  order and key uniqueness exactly as CPython dicts do;
* a catalog tree scan is a list of (relative path, parse result) pairs:
  the directory walk itself is external I/O, while the per-file parse
  outcome (polib.pofile succeeding or raising) is the Except value;
* Python text lines are List Char so that the regular expressions of the
  hunk classifier can be embedded as explicit character-list matchers.
-/

/-- A polib occurrence: a (file, line) pair as carried in `#:` comments. -/
abbrev Occ : Type := String × String

/-- Content key `(msgctxt or "", msgid)` used inside one language. -/
abbrev CKey : Type := String × String

/-- Full key `(relpath, msgctxt or "", msgid)` used when diffing trees. -/
abbrev FullKey : Type := String × String × String

/-- One catalog entry, mirroring the polib.POEntry fields the script
reads or writes. -/
structure POEntry where
  msgid : String
  msgctxt : Option String := none
  msgstr : String := ""
  msgid_plural : Option String := none
  msgstr_plural : List (Nat × String) := []
  occurrences : List Occ := []
  comment : String := ""
  tcomment : String := ""
  flags : List String := []
  previous_msgctxt : Option String := none
  previous_msgid : Option String := none
  previous_msgid_plural : Option String := none
  obsolete : Bool := false
deriving DecidableEq

/-- A catalog file: header metadata plus the ordered entry sequence
(obsolete entries included, as polib iteration includes them). -/
structure POFile where
  metadata : List (String × String) := []
  entries : List POEntry := []
deriving DecidableEq

/-- Outcome of parsing one catalog file: its entries, or the message of
the exception polib raised. -/
abbrev ParseResult : Type := Except String (List POEntry)

deriving instance DecidableEq for Except

/-- A catalog tree scan: (relative path, parse outcome) per file, in
walk order, already restricted to the wanted extension and with the
helpcontent2 subtree excluded (both are part of the external walk). -/
abbrev CatTree : Type := List (String × ParseResult)

/-- The content key of an entry: `(entry.msgctxt or "", entry.msgid)`. -/
def contentKey (e : POEntry) : CKey := (e.msgctxt.getD "", e.msgid)

/-- Python dict lookup `d.get(k)` on an insertion-ordered assoc list. -/
def alookup {α β : Type} [DecidableEq α] : List (α × β) → α → Option β
  | [], _ => none
  | (k, v) :: rest, a => if a = k then some v else alookup rest a

/-- Python dict store `d[k] = v`: update in place if the key exists,
append otherwise. -/
def setKey {α β : Type} [DecidableEq α] : List (α × β) → α → β → List (α × β)
  | [], a, b => [(a, b)]
  | (k, v) :: rest, a, b =>
      if k = a then (a, b) :: rest else (k, v) :: setKey rest a b

/-- Python `needle in hay` on strings, as a character-list infix test. -/
def isInfixB (needle : List Char) : List Char → Bool
  | [] => needle.isEmpty
  | c :: t => needle.isPrefixOf (c :: t) || isInfixB needle t

/-- Python str.strip(): drop the characters satisfying p from both
ends. -/
def stripBoth (p : Char → Bool) (l : List Char) : List Char :=
  ((l.dropWhile p).reverse.dropWhile p).reverse

/-- Python s.strip() on a String (whitespace from both ends). -/
def pyStrip (s : String) : String :=
  String.mk (stripBoth Char.isWhitespace s.toList)

/-- Python `sub in s` on Strings. -/
def strContains (hay needle : String) : Bool :=
  isInfixB needle.toList hay.toList

/-!  ### POT comparison: collect_pot_entries / merge_or_add / build_diff_pot -/

/-- collect_pot_entries: walk the tree and store every entry under its
full key `(relpath, entry.msgctxt or "", entry.msgid)`, last write wins.
The source has no try/except here, so the first parse failure aborts the
whole scan. -/
def collectPotAux (acc : List (FullKey × POEntry)) :
    CatTree → Except String (List (FullKey × POEntry))
  | [] => Except.ok acc
  | (_, Except.error e) :: _ => Except.error e
  | (relpath, Except.ok entries) :: rest =>
      collectPotAux
        (entries.foldl
          (fun a entry =>
            setKey a (relpath, entry.msgctxt.getD "", entry.msgid) entry)
          acc)
        rest

def collect_pot_entries (tree : CatTree) :
    Except String (List (FullKey × POEntry)) :=
  collectPotAux [] tree

/-- The fresh record merge_or_add creates for a key not yet present:
polib.POEntry(msgid=…, msgctxt=…, msgstr="", occurrences=list(…),
comment=…, tcomment=…, flags=list(…)). -/
def freshEntry (entry : POEntry) : POEntry :=
  { msgid := entry.msgid
    msgctxt := entry.msgctxt
    msgstr := ""
    occurrences := entry.occurrences
    comment := entry.comment
    tcomment := entry.tcomment
    flags := entry.flags }

/-- The occurrence merge of merge_or_add: seed the seen set with the
existing occurrences and append each new occurrence not seen yet. -/
def addOccs (cur : List Occ) (new : List Occ) : List Occ :=
  new.foldl (fun acc o => if o ∈ acc then acc else acc ++ [o]) cur

/-- Comment concatenation of merge_or_add: append when the incoming
comment is non-empty and not an (infix) part of the existing one. -/
def mergeComment (existing incoming : String) : String :=
  if incoming ≠ "" && !(strContains existing incoming) then
    pyStrip (existing ++ "\n" ++ incoming)
  else existing

/-- The in-place update merge_or_add performs on the stored entry. -/
def mergeEntry (existing entry : POEntry) : POEntry :=
  { existing with
    occurrences := addOccs existing.occurrences entry.occurrences
    comment := mergeComment existing.comment entry.comment
    tcomment := mergeComment existing.tcomment entry.tcomment }

/-- merge_or_add on the growing content-keyed dict. -/
def merge_or_add (target : List (CKey × POEntry)) (entry : POEntry) :
    List (CKey × POEntry) :=
  match target with
  | [] => [(contentKey entry, freshEntry entry)]
  | (k, ex) :: rest =>
      if k = contentKey entry then (k, mergeEntry ex entry) :: rest
      else (k, ex) :: merge_or_add rest entry

/-- The build_diff_pot keep test for one downstream full key: the
upstream values sharing file and context (same_ctx) are empty, or none
of them carries the msgid. -/
def noUpstreamMatch (upstream : List (FullKey × POEntry)) (key : FullKey) :
    Bool :=
  let same_ctx :=
    (upstream.filter (fun p => p.1.1 = key.1 ∧ p.1.2.1 = key.2.1)).map
      (fun p => p.2)
  same_ctx.isEmpty || !(same_ctx.any (fun v => v.msgid = key.2.2))

/-- The merged dict build_diff_pot accumulates over the downstream
items, in dict iteration order. -/
def diff_merged (downstream upstream : List (FullKey × POEntry)) :
    List (CKey × POEntry) :=
  downstream.foldl
    (fun merged p =>
      if noUpstreamMatch upstream p.1 then merge_or_add merged p.2
      else merged)
    []

/-- The fixed metadata build_diff_pot writes into the diff POT. -/
def diffMetadata : List (String × String) :=
  [("Project-Id-Version", "core-co-25.04"),
   ("Content-Type", "text/plain; charset=UTF-8"),
   ("Content-Transfer-Encoding", "8bit")]

/-- build_diff_pot: load upstream, then downstream, keep the downstream
entries without an upstream full-key match, merged by content key. -/
def build_diff_pot (downstreamTree upstreamTree : CatTree) :
    Except String POFile := do
  let upstream ← collect_pot_entries upstreamTree
  let downstream ← collect_pot_entries downstreamTree
  pure { metadata := diffMetadata
         entries := (diff_merged downstream upstream).map (fun p => p.2) }

/-!  ### Specification-side vocabulary for the differ -/

/-- The downstream entries that survive the diff (no upstream full-key
match) and carry content key K, in downstream dict order. -/
def survivors (downstream upstream : List (FullKey × POEntry)) (K : CKey) :
    List POEntry :=
  ((downstream.filter (fun p => noUpstreamMatch upstream p.1)).map
      (fun p => p.2)).filter
    (fun e => contentKey e = K)

/-- First-seen-order union with duplicates removed, the spec wording for
the diff entry's occurrence list. -/
def dedupFirstSeen (l : List Occ) : List Occ := addOccs [] l

/-- Concatenation of the occurrence lists of a run of entries. -/
def concatOccs : List POEntry → List Occ
  | [] => []
  | e :: rest => e.occurrences ++ concatOccs rest

/-- Folding a run of surviving downstream entries into the value stored
at their shared content key: absent keys get freshEntry, present keys
get mergeEntry. -/
def mergeFold (o : Option POEntry) : List POEntry → Option POEntry
  | [] => o
  | e :: rest =>
      mergeFold
        (some (match o with
          | none => freshEntry e
          | some ex => mergeEntry ex e))
        rest

/-- The inner step of the build_diff_pot loop. -/
def diffStep (upstream : List (FullKey × POEntry))
    (merged : List (CKey × POEntry)) (p : FullKey × POEntry) :
    List (CKey × POEntry) :=
  if noUpstreamMatch upstream p.1 then merge_or_add merged p.2 else merged

/-!  ### Translation index builder: collect_translations -/

/-- One step of the collect_translations scan: index a non-empty,
non-obsolete translation under its content key (last write wins) and
record the msgstr in the per-msgid set of distinct values. -/
def scanEntry (acc : List (CKey × String) × List (String × List String))
    (e : POEntry) : List (CKey × String) × List (String × List String) :=
  if e.msgstr ≠ "" && !e.obsolete then
    (setKey acc.1 (contentKey e) e.msgstr,
     let strs := (alookup acc.2 e.msgid).getD []
     setKey acc.2 e.msgid
       (if e.msgstr ∈ strs then strs else strs ++ [e.msgstr]))
  else acc

/-- Scan of one file: a parse failure is logged and skipped (the source
wraps polib.pofile in try/except here), a parsed file is folded entry by
entry. -/
def scanFile (acc : List (CKey × String) × List (String × List String)) :
    ParseResult → List (CKey × String) × List (String × List String)
  | Except.error _ => acc
  | Except.ok entries => entries.foldl scanEntry acc

def scanTree (acc : List (CKey × String) × List (String × List String))
    (tree : CatTree) : List (CKey × String) × List (String × List String) :=
  tree.foldl (fun a f => scanFile a f.2) acc

/-- The context-free fallback: keep exactly the msgids whose set of
distinct recorded msgstr values is a singleton. -/
def by_msgid_of (msgid_strs : List (String × List String)) :
    List (String × String) :=
  msgid_strs.filterMap
    (fun p => match p.2 with
      | [s] => some (p.1, s)
      | _ => none)

/-- collect_translations: returns (by_key, by_msgid). -/
def collect_translations (tree : CatTree) :
    List (CKey × String) × List (String × String) :=
  let acc := scanTree ([], []) tree
  (acc.1, by_msgid_of acc.2)

/-- All translations recorded for an msgid anywhere in the parseable
part of the tree (non-empty, non-obsolete), in scan order: the
declarative counterpart of the per-msgid value set. -/
def recordedTranslations : CatTree → String → List String
  | [], _ => []
  | (_, Except.error _) :: rest, id0 => recordedTranslations rest id0
  | (_, Except.ok es) :: rest, id0 =>
      (es.filter
        (fun e => e.msgid = id0 && e.msgstr ≠ "" && !e.obsolete)).map
        (fun e => e.msgstr) ++ recordedTranslations rest id0

/-!  ### Catalog merger: clone_entry / _lookup_translation /
update_existing_po -/

/-- clone_entry: deep copy with msgstr overridden; the obsolete marker is
not copied (polib defaults it to False). -/
def clone_entry (entry : POEntry) (msgstr : String := "") : POEntry :=
  { msgid := entry.msgid
    msgctxt := entry.msgctxt
    msgstr := msgstr
    msgid_plural := entry.msgid_plural
    msgstr_plural := entry.msgstr_plural
    occurrences := entry.occurrences
    comment := entry.comment
    tcomment := entry.tcomment
    flags := entry.flags
    previous_msgctxt := entry.previous_msgctxt
    previous_msgid := entry.previous_msgid
    previous_msgid_plural := entry.previous_msgid_plural }

/-- _lookup_translation: exact (msgctxt, msgid) lookup first, falling
back to the context-free msgid map when the result is empty. -/
def lookup_translation (key : CKey) (msgid : String)
    (core_translations : List (CKey × String))
    (core_translations_fallback : List (String × String)) : String :=
  let msgstr := (alookup core_translations key).getD ""
  if msgstr = "" then (alookup core_translations_fallback msgid).getD ""
  else msgstr

/-- The index over the existing PO that update_existing_po builds:
(msgctxt or "", msgid) → entry, last write wins, obsolete entries
included (polib iteration includes them). -/
def buildIndex (entries : List POEntry) : List (CKey × POEntry) :=
  entries.foldl (fun idx e => setKey idx (contentKey e) e) []

/-- update_existing_po: one output entry per pot entry, preserving a
non-empty existing translation and otherwise prefilling via
_lookup_translation; metadata is copied from the existing file. -/
def update_existing_po (pot : POFile) (existing : POFile)
    (core_translations : List (CKey × String))
    (core_translations_fallback : List (String × String)) : POFile :=
  let existing_index := buildIndex existing.entries
  { metadata := existing.metadata
    entries := pot.entries.map (fun pot_entry =>
      let key := contentKey pot_entry
      match alookup existing_index key with
      | some ex =>
          if ex.msgstr ≠ "" then clone_entry pot_entry ex.msgstr
          else
            clone_entry pot_entry
              (lookup_translation key pot_entry.msgid core_translations
                core_translations_fallback)
      | none =>
          clone_entry pot_entry
            (lookup_translation key pot_entry.msgid core_translations
              core_translations_fallback)) }

/-!  ### Retrofit: collect_replacements and the translation application
step of retrofit_lang -/

/-- collect_replacements: translated (non-empty, non-obsolete) entries of
the review catalog, keyed by content key, last write wins. -/
def collect_replacements (entries : List POEntry) : List (CKey × String) :=
  entries.foldl
    (fun repl e =>
      if e.msgstr ≠ "" && !e.obsolete then
        setKey repl (contentKey e) e.msgstr
      else repl)
    []

/-- Python list.remove("fuzzy"): drop the first occurrence. -/
def removeFirst (l : List String) (s : String) : List String :=
  match l with
  | [] => []
  | x :: rest => if x = s then rest else x :: removeFirst rest s

/-- The per-entry body of retrofit_lang step 2: when the entry's content
key has a replacement that differs from its msgstr, overwrite the msgstr
and drop a fuzzy flag; the Bool reports whether the entry changed. -/
def retrofit_entry (replacements : List (CKey × String)) (e : POEntry) :
    POEntry × Bool :=
  match alookup replacements (contentKey e) with
  | some new_msgstr =>
      if e.msgstr ≠ new_msgstr then
        ({ e with msgstr := new_msgstr
                  flags := if "fuzzy" ∈ e.flags then removeFirst e.flags "fuzzy"
                           else e.flags },
         true)
      else (e, false)
  | none => (e, false)

/-- retrofit_lang step 2 over a whole parsed branch tree: apply
retrofit_entry to every entry of every file. -/
def retrofit_tree (replacements : List (CKey × String))
    (tree : List (String × List POEntry)) : List (String × List POEntry) :=
  tree.map (fun f => (f.1, f.2.map (fun e => (retrofit_entry replacements e).1)))

/-!  ### Obsolete deduplication -/

/-- The raw-msgctxt key _remove_obsolete_duplicates compares by:
(e.msgctxt, e.msgid) without the `or ""` normalisation. -/
def rawKey (e : POEntry) : Option String × String := (e.msgctxt, e.msgid)

/-- Modelled from the spec: the Catalog Model (polib) is external to this
repository; its obsolete-entry sublist and entry removal are modelled
per the spec's Catalog Model section, so removing an entry from the
obsolete sublist removes it from the file. _remove_obsolete_duplicates
then removes every obsolete entry whose (msgctxt, msgid) duplicates an
active entry's, rewrites only when one was found, and reports whether it
removed any. -/
def isObsoleteDup (entries : List POEntry) (e : POEntry) : Bool :=
  e.obsolete &&
    rawKey e ∈ (entries.filter (fun x => !x.obsolete)).map rawKey

def remove_obsolete_duplicates (entries : List POEntry) :
    List POEntry × Bool :=
  if (entries.filter (isObsoleteDup entries)).isEmpty then (entries, false)
  else (entries.filter (fun e => !isObsoleteDup entries e), true)

/-!  ### Diff hunk noise classifier -/

/-- The header metadata field names whose changed lines are noise. -/
def headerKeywords : List (List Char) :=
  ["POT-Creation-Date", "PO-Revision-Date", "Last-Translator",
   "Language-Team", "MIME-Version", "Content-Type",
   "Content-Transfer-Encoding", "Plural-Forms", "X-Generator",
   "X-Accelerator-Marker", "X-POOTLE-MTIME", "Project-Id-Version",
   "Report-Msgid-Bugs-To", "Language:"].map String.toList

/-- A changed-line marker: the regex class [+-]. -/
def isPM (c : Char) : Bool := c == '+' || c == '-'

/-- re.match of ^[+-]tag\s : marker, the tag, then one whitespace. -/
def matchTagWS (tag : List Char) (l : List Char) : Bool :=
  match l with
  | c :: rest =>
      isPM c && tag.isPrefixOf rest &&
        (match rest.drop tag.length with
         | w :: _ => w.isWhitespace
         | [] => false)
  | [] => false

/-- re.match of ^[+-]msgstr (no anchor after the field name). -/
def matchMsgstrStart (l : List Char) : Bool :=
  match l with
  | c :: rest => isPM c && ("msgstr".toList).isPrefixOf rest
  | [] => false

/-- The tail test of ^[+-]msgstr\s*""?\s*$ after the field name: optional
whitespace, one quote, optionally a second, optional whitespace, end. -/
def emptyMsgstrTail (l : List Char) : Bool :=
  match l.dropWhile Char.isWhitespace with
  | '"' :: l2 =>
      (match l2 with
       | '"' :: t => (t.dropWhile Char.isWhitespace).isEmpty
       | t => (t.dropWhile Char.isWhitespace).isEmpty)
  | _ => false

/-- re.match of ^[+-]msgstr\s*""?\s*$ : a translation line changed to
empty. -/
def matchEmptyMsgstr (l : List Char) : Bool :=
  match l with
  | c :: rest =>
      isPM c && ("msgstr".toList).isPrefixOf rest &&
        emptyMsgstrTail (rest.drop 6)
  | [] => false

/-- Python `any(kw in line for kw in _HEADER_KEYWORDS)`. -/
def hasHeaderKeyword (l : List Char) : Bool :=
  headerKeywords.any (fun kw => isInfixB kw l)

/-- re.match of ^[+-]" : a changed quoted continuation line. -/
def matchQuoteStart (l : List Char) : Bool :=
  match l with
  | c :: '"' :: _ => isPM c
  | _ => false

/-- line[2:].strip().strip('"') of a quoted continuation line. -/
def quoteContent (l : List Char) : List Char :=
  stripBoth (fun c => c == '"') (stripBoth Char.isWhitespace (l.drop 2))

/-- The content test of the quoted-continuation branch: non-empty and not
starting with a comment marker. -/
def quoteContentReal (l : List Char) : Bool :=
  match quoteContent l with
  | [] => false
  | c :: _ => !(c == '#')

/-- _hunk_has_real_changes: scan the hunk lines in order and return true
at the first real translation or structural change. -/
def hunk_has_real_changes : List (List Char) → Bool
  | [] => false
  | l :: rest =>
      if ("@@".toList).isPrefixOf l then hunk_has_real_changes rest
      else if matchTagWS ("msgctxt".toList) l then true
      else if matchTagWS ("msgid".toList) l then true
      else if matchMsgstrStart l then
        if matchEmptyMsgstr l then hunk_has_real_changes rest
        else if hasHeaderKeyword l then hunk_has_real_changes rest
        else true
      else if matchQuoteStart l then
        if hasHeaderKeyword l then hunk_has_real_changes rest
        else if quoteContentReal l then true
        else hunk_has_real_changes rest
      else hunk_has_real_changes rest

/-- Python content.startswith("#"). -/
def startsWithHash (cs : List Char) : Bool :=
  match cs with
  | d :: _ => d == '#'
  | [] => false

/-- Python `not content.strip()`: nothing but whitespace. -/
def isBlankStr (cs : List Char) : Bool :=
  (cs.dropWhile Char.isWhitespace).isEmpty

/-- _hunk_is_comment_only: every changed line is a comment line or
blank. -/
def hunk_is_comment_only : List (List Char) → Bool
  | [] => true
  | l :: rest =>
      if ("@@".toList).isPrefixOf l then hunk_is_comment_only rest
      else
        match l with
        | c :: content =>
            if isPM c then
              if startsWithHash content || isBlankStr content then
                hunk_is_comment_only rest
              else false
            else hunk_is_comment_only rest
        | [] => hunk_is_comment_only rest

/-- _filter_hunks: drop comment-only hunks, keep hunks with real
changes, preserving order. -/
def filter_hunks (hunks : List (List (List Char))) :
    List (List (List Char)) :=
  hunks.foldl
    (fun acc h =>
      if hunk_is_comment_only h then acc
      else if hunk_has_real_changes h then acc ++ [h]
      else acc)
    []

/-!  ### Specification-side line classification for the hunk filter -/

/-- A changed identity line: msgctxt or msgid field. -/
def identityChangeLine (l : List Char) : Bool :=
  matchTagWS ("msgctxt".toList) l || matchTagWS ("msgid".toList) l

/-- A changed translation-text line that is real: an msgstr line that is
not changed-to-empty and carries no header-metadata field name, or a
quoted continuation line without header-metadata field name whose
stripped content is non-empty and not a comment. -/
def realTranslationChangeLine (l : List Char) : Bool :=
  (matchMsgstrStart l && !matchEmptyMsgstr l && !hasHeaderKeyword l) ||
  (matchQuoteStart l && !hasHeaderKeyword l && quoteContentReal l)

/-- A changed (plus or minus) line, as the comment-only test sees it. -/
def changedLine (l : List Char) : Bool :=
  !(("@@".toList).isPrefixOf l) &&
    (match l with
     | c :: _ => isPM c
     | [] => false)

/-- A changed line that only touches a comment or is blank. -/
def commentOrBlankLine (l : List Char) : Bool :=
  match l with
  | _ :: cs => startsWithHash cs || isBlankStr cs
  | [] => true

/-- The per-msgid set update of the scan, iterated: insert each value
not yet present, keeping first-seen order (the order is invisible to the
scan, which only tests the set's size). -/
def addStrs (strs : List String) (l : List String) : List String :=
  l.foldl (fun strs s => if s ∈ strs then strs else strs ++ [s]) strs

/-- How the optional per-msgid value set evolves when a run of recorded
translations l is folded in. -/
def recStrs (o : Option (List String)) (l : List String) :
    Option (List String) :=
  match o, l with
  | none, [] => none
  | _, _ => some (addStrs (o.getD []) l)

/-- The parseable part of a tree: what a scan that skips malformed
files effectively processes. -/
def parseableOnly (tree : CatTree) : CatTree :=
  tree.filter
    (fun f => match f.2 with
      | Except.ok _ => true
      | Except.error _ => false)

/-- The last entry of a catalog carrying content key K: what a
last-write-wins index lookup returns. -/
def lastWith : List POEntry → CKey → Option POEntry
  | [], _ => none
  | e :: rest, K =>
      match lastWith rest K with
      | some r => some r
      | none => if contentKey e = K then some e else none

/-- The per-entry translation choice of update_existing_po, factored out
of its loop body. -/
def chooseT (existing : POFile) (byKey : List (CKey × String))
    (byId : List (String × String)) (pe : POEntry) : String :=
  match alookup (buildIndex existing.entries) (contentKey pe) with
  | some ex =>
      if ex.msgstr ≠ "" then ex.msgstr
      else lookup_translation (contentKey pe) pe.msgid byKey byId
  | none => lookup_translation (contentKey pe) pe.msgid byKey byId

/-- The spec wording of the merge precedence: an existing review entry
with the same content key and a non-empty translation wins verbatim;
otherwise the exact-context index is tried, then the context-free index,
otherwise blank. -/
def specChoose (existing : POFile) (byKey : List (CKey × String))
    (byId : List (String × String)) (pe : POEntry) : String :=
  match existing.entries.find?
      (fun ex => contentKey ex = contentKey pe && ex.msgstr ≠ "") with
  | some ex => ex.msgstr
  | none =>
      match alookup byKey (contentKey pe) with
      | some t => t
      | none => (alookup byId pe.msgid).getD ""

/-!  ### Concrete inputs used by the witness and counterexample
theorems -/

/-- A downstream entry as found in f.pot. -/
def wE1 : POEntry :=
  { msgid := "Hello", msgctxt := some "ctx", occurrences := [("a.c", "10")] }

/-- The same string found in g.pot with one extra occurrence. -/
def wE2 : POEntry :=
  { msgid := "Hello", msgctxt := some "ctx",
    occurrences := [("b.c", "20"), ("a.c", "10")] }

/-- An upstream copy of wE1 (same full key once placed in f.pot). -/
def wU : POEntry := { msgid := "Hello", msgctxt := some "ctx" }

/-- Downstream tree: the same content key in two files. -/
def dTreeW : CatTree :=
  [("f.pot", Except.ok [wE1]), ("g.pot", Except.ok [wE2])]

/-- The items collect_pot_entries extracts from dTreeW. -/
def downW : List (FullKey × POEntry) :=
  [(("f.pot", "ctx", "Hello"), wE1), (("g.pot", "ctx", "Hello"), wE2)]

/-- Downstream/upstream trees where the only entry has a full-key match. -/
def dTree6 : CatTree := [("f.pot", Except.ok [wE1])]

def uTree6 : CatTree := [("f.pot", Except.ok [wU])]

def down6 : List (FullKey × POEntry) := [(("f.pot", "ctx", "Hello"), wE1)]

def up6 : List (FullKey × POEntry) := [(("f.pot", "ctx", "Hello"), wU)]

/-- The diff POT produced from dTreeW against an empty upstream. -/
def po10 : POFile :=
  { metadata := diffMetadata, entries := [mergeEntry (freshEntry wE1) wE2] }

/-- A downstream entry whose own occurrence list repeats one location. -/
def wDup : POEntry :=
  { msgid := "Dup", occurrences := [("a.c", "1"), ("a.c", "1")] }

def dTreeDup : CatTree := [("f.pot", Except.ok [wDup])]

/-- A tree in which the second file fails to parse. -/
def badTree : CatTree :=
  [("a.pot", Except.ok [wE1]), ("bad.pot", Except.error "malformed"),
   ("c.pot", Except.ok [wE2])]

/-- Index-source tree recording two different translations for the same
content key ("A", "X") in two files. -/
def cxTree3 : CatTree :=
  [("a.po", Except.ok [{ msgid := "X", msgctxt := some "A", msgstr := "T1" }]),
   ("b.po", Except.ok [{ msgid := "X", msgctxt := some "A", msgstr := "T2" }])]

/-- Index-source tree of the spec example: two contexts agreeing on
"Save", two contexts disagreeing on "Open". -/
def wTreeSave : CatTree :=
  [("a.po", Except.ok
      [{ msgid := "Save", msgctxt := some "A", msgstr := "Enregistrer" }]),
   ("b.po", Except.ok
      [{ msgid := "Save", msgctxt := some "B", msgstr := "Enregistrer" },
       { msgid := "Open", msgctxt := some "A", msgstr := "Ouvrir" }]),
   ("c.po", Except.ok
      [{ msgid := "Open", msgctxt := some "B", msgstr := "Ouvrez" }])]

/-- A one-entry diff POT for the merger witnesses. -/
def potW : POFile :=
  { metadata := diffMetadata,
    entries := [{ msgid := "Hello", msgctxt := some "c" }] }

/-- An existing review catalog holding the human translation X. -/
def exW : POFile :=
  { metadata := [("Language", "fr")],
    entries := [{ msgid := "Hello", msgctxt := some "c", msgstr := "X" }] }

/-- An index offering the competing translation Y for the same key. -/
def byKeyW : List (CKey × String) := [(("c", "Hello"), "Y")]

/-- A branch entry already carrying the finished translation, still
flagged fuzzy. -/
def rEq : POEntry :=
  { msgid := "Hello", msgctxt := some "c", msgstr := "Bonjour",
    flags := ["fuzzy"] }

/-- A branch entry with an outdated translation and a fuzzy flag. -/
def rOld : POEntry :=
  { msgid := "Hello", msgctxt := some "c", msgstr := "Old",
    flags := ["fuzzy"] }

/-- The review catalog supplying the finished translation Bonjour. -/
def reviewW : List POEntry :=
  [{ msgid := "Hello", msgctxt := some "c", msgstr := "Bonjour" }]

/-- An active entry, an obsolete duplicate of it, and an unrelated
obsolete entry. -/
def oAct : POEntry := { msgid := "K", msgctxt := some "c", msgstr := "t" }

/-- An active entry with no context at all (msgctxt is None). -/
def oNoCtx : POEntry := { msgid := "K", msgctxt := none, msgstr := "t" }

/-- An obsolete entry with the empty-string context: its content key
("", "K") equals oNoCtx's content key, but its raw (msgctxt, msgid)
pair differs (some "" versus none). -/
def oEmptyCtx : POEntry :=
  { msgid := "K", msgctxt := some "", msgstr := "old", obsolete := true }

def oDup : POEntry :=
  { msgid := "K", msgctxt := some "c", msgstr := "old", obsolete := true }

def oLone : POEntry := { msgid := "L", msgstr := "old", obsolete := true }

/-!  ### Association-list lemmas -/

theorem alookup_setKey {α β : Type} [DecidableEq α]
    (m : List (α × β)) (k : α) (v : β) (a : α) :
    alookup (setKey m k v) a = if a = k then some v else alookup m a := by
  induction m with
  | nil => simp [setKey, alookup]
  | cons p rest ih =>
      obtain ⟨k0, v0⟩ := p
      by_cases hk : k0 = k
      · subst hk
        by_cases ha : a = k0 <;> simp [setKey, alookup, ha]
      · by_cases ha : a = k0
        · subst ha
          simp [setKey, alookup, hk, Ne.symm hk]
        · simp [setKey, alookup, hk, ha, ih]

theorem alookup_eq_none_iff {α β : Type} [DecidableEq α]
    (m : List (α × β)) (a : α) :
    alookup m a = none ↔ a ∉ m.map Prod.fst := by
  induction m with
  | nil => simp [alookup]
  | cons p rest ih =>
      obtain ⟨k0, v0⟩ := p
      by_cases ha : a = k0
      · subst ha; simp [alookup]
      · simp [alookup, ha, ih]

theorem alookup_mem {α β : Type} [DecidableEq α]
    {m : List (α × β)} {a : α} {v : β} (h : alookup m a = some v) :
    (a, v) ∈ m := by
  induction m with
  | nil => simp [alookup] at h
  | cons p rest ih =>
      obtain ⟨k0, v0⟩ := p
      by_cases ha : a = k0
      · subst ha
        simp [alookup] at h
        simp [h]
      · simp [alookup, ha] at h
        exact List.mem_cons_of_mem _ (ih h)

theorem mem_setKey {α β : Type} [DecidableEq α]
    {m : List (α × β)} {k : α} {v : β} {p : α × β}
    (h : p ∈ setKey m k v) : p ∈ m ∨ p = (k, v) := by
  induction m with
  | nil => simp [setKey] at h; simp [h]
  | cons q rest ih =>
      obtain ⟨k0, v0⟩ := q
      by_cases hk : k0 = k
      · subst hk
        simp [setKey] at h
        rcases h with h | h
        · right; simp [h]
        · left; exact List.mem_cons_of_mem _ h
      · simp [setKey, hk] at h
        rcases h with h | h
        · left; simp [h]
        · rcases ih h with h2 | h2
          · left; exact List.mem_cons_of_mem _ h2
          · right; exact h2

theorem map_fst_setKey {α β : Type} [DecidableEq α]
    (m : List (α × β)) (k : α) (v : β) :
    (setKey m k v).map Prod.fst =
      if k ∈ m.map Prod.fst then m.map Prod.fst
      else m.map Prod.fst ++ [k] := by
  induction m with
  | nil => simp [setKey]
  | cons q rest ih =>
      obtain ⟨k0, v0⟩ := q
      by_cases hk : k0 = k
      · subst hk; simp [setKey]
      · have hk2 : ¬ k = k0 := fun h0 => hk h0.symm
        simp [setKey, hk, hk2, ih]
        by_cases hmem : k ∈ rest.map Prod.fst <;> simp [hmem, hk2]

theorem nodup_map_fst_setKey {α β : Type} [DecidableEq α]
    {m : List (α × β)} (h : (m.map Prod.fst).Nodup) (k : α) (v : β) :
    ((setKey m k v).map Prod.fst).Nodup := by
  rw [map_fst_setKey]
  by_cases hmem : k ∈ m.map Prod.fst
  · simpa [hmem] using h
  · simp only [hmem, if_false]
    rw [List.nodup_append]
    refine ⟨h, List.nodup_singleton k, ?_⟩
    intro a ha hb
    simp only [List.mem_singleton] at hb
    subst hb
    exact hmem ha

/-!  ### merge_or_add lemmas -/

theorem contentKey_freshEntry (e : POEntry) :
    contentKey (freshEntry e) = contentKey e := rfl

theorem contentKey_mergeEntry (ex e : POEntry) :
    contentKey (mergeEntry ex e) = contentKey ex := rfl

theorem msgstr_freshEntry (e : POEntry) : (freshEntry e).msgstr = "" := rfl

theorem msgstr_mergeEntry (ex e : POEntry) :
    (mergeEntry ex e).msgstr = ex.msgstr := rfl

theorem occurrences_freshEntry (e : POEntry) :
    (freshEntry e).occurrences = e.occurrences := rfl

theorem occurrences_mergeEntry (ex e : POEntry) :
    (mergeEntry ex e).occurrences = addOccs ex.occurrences e.occurrences :=
  rfl

theorem alookup_merge_or_add (m : List (CKey × POEntry)) (e : POEntry)
    (K : CKey) :
    alookup (merge_or_add m e) K =
      if K = contentKey e then
        some (match alookup m K with
          | none => freshEntry e
          | some ex => mergeEntry ex e)
      else alookup m K := by
  induction m with
  | nil =>
      by_cases hK : K = contentKey e <;> simp [merge_or_add, alookup, hK]
  | cons p rest ih =>
      obtain ⟨k0, ex0⟩ := p
      by_cases hk : k0 = contentKey e
      · by_cases hK : K = k0
        · simp [merge_or_add, alookup, hk, hK]
        · have hKe : ¬ K = contentKey e := by rw [← hk]; exact hK
          simp [merge_or_add, alookup, hk, hK, hKe]
      · by_cases hK : K = k0
        · have hKe : ¬ K = contentKey e := by rw [hK]; exact hk
          simp [merge_or_add, alookup, hk, hK, hKe]
        · simp [merge_or_add, alookup, hk, hK, ih]

theorem map_fst_merge_or_add (m : List (CKey × POEntry)) (e : POEntry) :
    (merge_or_add m e).map Prod.fst =
      match alookup m (contentKey e) with
      | some _ => m.map Prod.fst
      | none => m.map Prod.fst ++ [contentKey e] := by
  induction m with
  | nil => simp [merge_or_add, alookup]
  | cons p rest ih =>
      obtain ⟨k0, ex0⟩ := p
      by_cases hk : k0 = contentKey e
      · subst hk
        simp [merge_or_add, alookup]
      · have hk2 : ¬ contentKey e = k0 := fun h => hk h.symm
        simp [merge_or_add, alookup, hk, hk2, ih]
        cases alookup rest (contentKey e) <;> simp

theorem mem_merge_or_add {m : List (CKey × POEntry)} {e : POEntry}
    {p : CKey × POEntry} (h : p ∈ merge_or_add m e) :
    p ∈ m ∨
    p = (contentKey e, freshEntry e) ∨
    ∃ ex, (p.1, ex) ∈ m ∧ p = (p.1, mergeEntry ex e) := by
  induction m with
  | nil =>
      simp [merge_or_add] at h
      right; left; simp [h]
  | cons q rest ih =>
      obtain ⟨k0, ex0⟩ := q
      by_cases hk : k0 = contentKey e
      · subst hk
        simp only [merge_or_add, if_pos rfl] at h
        rcases List.mem_cons.mp h with h1 | h1
        · right; right
          exact ⟨ex0, by simp [h1], by simp [h1]⟩
        · left; exact List.mem_cons_of_mem _ h1
      · simp only [merge_or_add, if_neg hk] at h
        rcases List.mem_cons.mp h with h1 | h1
        · left; simp [h1]
        · rcases ih h1 with h2 | h2 | h2
          · left; exact List.mem_cons_of_mem _ h2
          · right; left; exact h2
          · right; right
            obtain ⟨ex, hmem, heq⟩ := h2
            exact ⟨ex, List.mem_cons_of_mem _ hmem, heq⟩

/-- Pair consistency: every stored pair's key is its entry's content
key; preserved by merge_or_add. -/
theorem consistent_merge_or_add {m : List (CKey × POEntry)} {e : POEntry}
    (h : ∀ p ∈ m, contentKey p.2 = p.1) :
    ∀ p ∈ merge_or_add m e, contentKey p.2 = p.1 := by
  intro p hp
  rcases mem_merge_or_add hp with h1 | h1 | h1
  · exact h p h1
  · simp [h1, contentKey_freshEntry]
  · obtain ⟨ex, hmem, heq⟩ := h1
    have := h _ hmem
    rw [heq]
    simpa [contentKey_mergeEntry] using this

/-- Every entry stored by merge_or_add keeps an empty msgstr. -/
theorem msgstr_blank_merge_or_add {m : List (CKey × POEntry)} {e : POEntry}
    (h : ∀ p ∈ m, (p.2 : POEntry).msgstr = "") :
    ∀ p ∈ merge_or_add m e, (p.2 : POEntry).msgstr = "" := by
  intro p hp
  rcases mem_merge_or_add hp with h1 | h1 | h1
  · exact h p h1
  · simp [h1, msgstr_freshEntry]
  · obtain ⟨ex, hmem, heq⟩ := h1
    have := h _ hmem
    rw [heq]
    simpa [msgstr_mergeEntry] using this

theorem nodup_map_fst_merge_or_add {m : List (CKey × POEntry)} {e : POEntry}
    (h : (m.map Prod.fst).Nodup) :
    ((merge_or_add m e).map Prod.fst).Nodup := by
  rw [map_fst_merge_or_add]
  cases hl : alookup m (contentKey e) with
  | some ex => exact h
  | none =>
      rw [List.nodup_append]
      refine ⟨h, List.nodup_singleton _, ?_⟩
      intro a ha hb
      simp only [List.mem_singleton] at hb
      subst hb
      exact ((alookup_eq_none_iff m (contentKey e)).mp hl) ha

/-!  ### addOccs lemmas -/

theorem addOccs_append (a : List Occ) (l1 l2 : List Occ) :
    addOccs a (l1 ++ l2) = addOccs (addOccs a l1) l2 := by
  simp [addOccs, List.foldl_append]

theorem addOccs_eq_append_filter {l : List Occ} (h : l.Nodup) :
    ∀ a : List Occ, addOccs a l = a ++ l.filter (fun o => decide (o ∉ a)) := by
  induction l with
  | nil => intro a; simp [addOccs]
  | cons x xs ih =>
      intro a
      have hx : x ∉ xs := (List.nodup_cons.mp h).1
      have hxs : xs.Nodup := (List.nodup_cons.mp h).2
      by_cases hmem : x ∈ a
      · have : addOccs a (x :: xs) = addOccs a xs := by
          simp [addOccs, hmem]
        rw [this, ih hxs a]
        simp [List.filter_cons, hmem]
      · have : addOccs a (x :: xs) = addOccs (a ++ [x]) xs := by
          simp [addOccs, hmem]
        rw [this, ih hxs (a ++ [x])]
        have hfil : xs.filter (fun o => decide (o ∉ a ++ [x]))
            = xs.filter (fun o => decide (o ∉ a)) := by
          apply List.filter_congr
          intro o ho
          have hox : o ≠ x := fun hEq => hx (hEq ▸ ho)
          simp [hox]
        rw [hfil]
        simp [List.filter_cons, hmem, List.append_assoc]

theorem addOccs_nil_of_nodup {l : List Occ} (h : l.Nodup) :
    addOccs [] l = l := by
  rw [addOccs_eq_append_filter h []]
  simp

/-!  ### The diff fold: lookup evolution through diff_merged -/

theorem mergeFold_some (x : POEntry) (l : List POEntry) :
    mergeFold (some x) l = some (l.foldl mergeEntry x) := by
  induction l generalizing x with
  | nil => simp [mergeFold]
  | cons e rest ih => simp [mergeFold, List.foldl_cons, ih]

theorem foldl_mergeEntry_occurrences (x : POEntry) (l : List POEntry) :
    (l.foldl mergeEntry x).occurrences =
      addOccs x.occurrences (concatOccs l) := by
  induction l generalizing x with
  | nil => simp [concatOccs, addOccs]
  | cons e rest ih =>
      simp [List.foldl_cons, ih, concatOccs, occurrences_mergeEntry,
        addOccs_append]

theorem foldl_mergeEntry_contentKey (x : POEntry) (l : List POEntry) :
    contentKey (l.foldl mergeEntry x) = contentKey x := by
  induction l generalizing x with
  | nil => rfl
  | cons e rest ih => simp [List.foldl_cons, ih, contentKey_mergeEntry]

theorem foldl_mergeEntry_msgstr (x : POEntry) (l : List POEntry) :
    (l.foldl mergeEntry x).msgstr = x.msgstr := by
  induction l generalizing x with
  | nil => rfl
  | cons e rest ih => simp [List.foldl_cons, ih, msgstr_mergeEntry]

theorem diff_merged_eq_foldl (downstream upstream : List (FullKey × POEntry)) :
    diff_merged downstream upstream = downstream.foldl (diffStep upstream) [] :=
  rfl

/-- How the value stored at content key K evolves through the diff loop:
it is the mergeFold of the kept downstream entries carrying K. -/
theorem alookup_foldl_diffStep (upstream : List (FullKey × POEntry))
    (K : CKey) :
    ∀ (downstream : List (FullKey × POEntry)) (m : List (CKey × POEntry)),
      alookup (downstream.foldl (diffStep upstream) m) K =
        mergeFold (alookup m K)
          (((downstream.filter (fun p => noUpstreamMatch upstream p.1)).map
              (fun p => p.2)).filter (fun e => decide (contentKey e = K))) := by
  intro downstream
  induction downstream with
  | nil => intro m; simp [mergeFold]
  | cons p rest ih =>
      intro m
      rw [List.foldl_cons]
      by_cases hkeep : noUpstreamMatch upstream p.1
      · have hstep : diffStep upstream m p = merge_or_add m p.2 := by
          simp [diffStep, hkeep]
        rw [hstep, ih, alookup_merge_or_add]
        by_cases hck : contentKey p.2 = K
        · rw [if_pos hck.symm]
          have hfil :
              (((p :: rest).filter
                  (fun q => noUpstreamMatch upstream q.1)).map
                  (fun q => q.2)).filter
                (fun e => decide (contentKey e = K)) =
              p.2 ::
                ((rest.filter (fun q => noUpstreamMatch upstream q.1)).map
                  (fun q => q.2)).filter
                  (fun e => decide (contentKey e = K)) := by
            simp [List.filter_cons, hkeep, hck]
          rw [hfil]
          simp [mergeFold]
        · rw [if_neg (fun h => hck h.symm)]
          have hfil :
              (((p :: rest).filter
                  (fun q => noUpstreamMatch upstream q.1)).map
                  (fun q => q.2)).filter
                (fun e => decide (contentKey e = K)) =
              ((rest.filter (fun q => noUpstreamMatch upstream q.1)).map
                (fun q => q.2)).filter
                (fun e => decide (contentKey e = K)) := by
            simp [List.filter_cons, hkeep, hck]
          rw [hfil]
      · have hstep : diffStep upstream m p = m := by
          simp [diffStep, hkeep]
        rw [hstep, ih]
        have hfil :
            (((p :: rest).filter
                (fun q => noUpstreamMatch upstream q.1)).map
                (fun q => q.2)).filter
              (fun e => decide (contentKey e = K)) =
            ((rest.filter (fun q => noUpstreamMatch upstream q.1)).map
              (fun q => q.2)).filter
              (fun e => decide (contentKey e = K)) := by
          simp [List.filter_cons, hkeep]
        rw [hfil]

/-!  ### Invariants of the diff fold -/

theorem nodup_foldl_diffStep (upstream : List (FullKey × POEntry)) :
    ∀ (downstream : List (FullKey × POEntry)) (m : List (CKey × POEntry)),
      (m.map Prod.fst).Nodup →
      (((downstream.foldl (diffStep upstream) m)).map Prod.fst).Nodup := by
  intro downstream
  induction downstream with
  | nil => intro m h; simpa using h
  | cons p rest ih =>
      intro m h
      rw [List.foldl_cons]
      apply ih
      by_cases hkeep : noUpstreamMatch upstream p.1
      · simpa [diffStep, hkeep] using nodup_map_fst_merge_or_add h
      · simpa [diffStep, hkeep] using h

theorem consistent_foldl_diffStep (upstream : List (FullKey × POEntry)) :
    ∀ (downstream : List (FullKey × POEntry)) (m : List (CKey × POEntry)),
      (∀ p ∈ m, contentKey p.2 = p.1) →
      ∀ p ∈ downstream.foldl (diffStep upstream) m, contentKey p.2 = p.1 := by
  intro downstream
  induction downstream with
  | nil => intro m h; simpa using h
  | cons q rest ih =>
      intro m h
      rw [List.foldl_cons]
      apply ih
      by_cases hkeep : noUpstreamMatch upstream q.1
      · simpa [diffStep, hkeep] using consistent_merge_or_add h
      · simpa [diffStep, hkeep] using h

theorem blank_foldl_diffStep (upstream : List (FullKey × POEntry)) :
    ∀ (downstream : List (FullKey × POEntry)) (m : List (CKey × POEntry)),
      (∀ p ∈ m, (p.2 : POEntry).msgstr = "") →
      ∀ p ∈ downstream.foldl (diffStep upstream) m,
        (p.2 : POEntry).msgstr = "" := by
  intro downstream
  induction downstream with
  | nil => intro m h; simpa using h
  | cons q rest ih =>
      intro m h
      rw [List.foldl_cons]
      apply ih
      by_cases hkeep : noUpstreamMatch upstream q.1
      · simpa [diffStep, hkeep] using msgstr_blank_merge_or_add h
      · simpa [diffStep, hkeep] using h

/-- In a consistent unique-key dict whose key K is present, exactly one
stored entry carries content key K. -/
theorem countP_eq_one_of_alookup {m : List (CKey × POEntry)} {K : CKey}
    {v : POEntry}
    (hnd : (m.map Prod.fst).Nodup)
    (hcons : ∀ p ∈ m, contentKey p.2 = p.1)
    (hl : alookup m K = some v) :
    (m.map Prod.snd).countP (fun e => decide (contentKey e = K)) = 1 := by
  induction m with
  | nil => simp [alookup] at hl
  | cons q rest ih =>
      obtain ⟨k0, e0⟩ := q
      have hk0 : contentKey e0 = k0 := hcons (k0, e0) (by simp)
      have hnd2 : (rest.map Prod.fst).Nodup := (List.nodup_cons.mp hnd).2
      have hnotin : k0 ∉ rest.map Prod.fst := (List.nodup_cons.mp hnd).1
      have hconsr : ∀ p ∈ rest, contentKey p.2 = p.1 :=
        fun p hp => hcons p (List.mem_cons_of_mem _ hp)
      by_cases hK : K = k0
      · subst hK
        have hzero :
            (rest.map Prod.snd).countP (fun e => decide (contentKey e = K)) =
              0 := by
          rw [List.countP_eq_zero]
          intro e he
          obtain ⟨p, hp, hpe⟩ := List.mem_map.mp he
          have := hconsr p hp
          simp only [decide_eq_true_eq]
          intro hcontra
          apply hnotin
          have hp1 : p.1 = K := by rw [← this, hpe, hcontra]
          rw [← hp1]
          exact List.mem_map_of_mem Prod.fst hp
        simp [List.countP_cons, hzero, hk0]
      · have hl2 : alookup rest K = some v := by
          simpa [alookup, hK] using hl
        have hne : ¬ contentKey e0 = K := by
          rw [hk0]; exact fun h => hK h.symm
        simp [List.countP_cons, hne, ih hnd2 hconsr hl2]

/-- Reduction of build_diff_pot when both scans succeed. -/
theorem build_diff_pot_ok {dTree uTree : CatTree}
    {down up : List (FullKey × POEntry)}
    (hd : collect_pot_entries dTree = Except.ok down)
    (hu : collect_pot_entries uTree = Except.ok up) :
    build_diff_pot dTree uTree =
      Except.ok { metadata := diffMetadata
                  entries := (diff_merged down up).map (fun p => p.2) } := by
  simp only [build_diff_pot, hd, hu]
  rfl

/-!  ### Survivor lemmas -/

theorem survivors_eq (down up : List (FullKey × POEntry)) (K : CKey) :
    survivors down up K =
      ((down.filter (fun p => noUpstreamMatch up p.1)).map
          (fun p => p.2)).filter (fun e => decide (contentKey e = K)) := rfl

theorem survivors_contentKey {down up : List (FullKey × POEntry)} {K : CKey}
    {e : POEntry} (h : e ∈ survivors down up K) : contentKey e = K := by
  rw [survivors_eq] at h
  have := List.of_mem_filter h
  simpa using this

theorem survivors_sub {down up : List (FullKey × POEntry)} {K : CKey}
    {e : POEntry} (h : e ∈ survivors down up K) : ∃ p ∈ down, p.2 = e := by
  rw [survivors_eq] at h
  have h1 := List.mem_of_mem_filter h
  obtain ⟨p, hp, hpe⟩ := List.mem_map.mp h1
  exact ⟨p, List.mem_of_mem_filter hp, hpe⟩

theorem alookup_diff_merged (down up : List (FullKey × POEntry)) (K : CKey) :
    alookup (diff_merged down up) K = mergeFold none (survivors down up K) := by
  rw [diff_merged_eq_foldl, alookup_foldl_diffStep, survivors_eq]
  rfl

/-- C1 (confirmed, under the data model's "occurrences form an ordered
set" invariant, taken as the Nodup hypothesis): for every content key K
carried by at least one downstream entry without an upstream full-key
match, the diff catalog produced by build_diff_pot contains exactly one
entry with content key K, and its occurrences are the duplicate-free,
first-seen-order union of the occurrences of all such downstream
entries sharing K. -/
theorem diff_completeness_dedup
    (dTree uTree : CatTree) (down up : List (FullKey × POEntry)) (K : CKey)
    (hd : collect_pot_entries dTree = Except.ok down)
    (hu : collect_pot_entries uTree = Except.ok up)
    (hocc : ∀ p ∈ down, (p.2 : POEntry).occurrences.Nodup)
    (hS : survivors down up K ≠ []) :
    ∃ po : POFile, build_diff_pot dTree uTree = Except.ok po ∧
      po.entries.countP (fun e => decide (contentKey e = K)) = 1 ∧
      ∃ e ∈ po.entries, contentKey e = K ∧
        e.occurrences = dedupFirstSeen (concatOccs (survivors down up K)) := by
  refine ⟨_, build_diff_pot_ok hd hu, ?_, ?_⟩
  all_goals
    obtain ⟨e0, srest, hsv⟩ :
        ∃ e0 srest, survivors down up K = e0 :: srest := by
      cases h : survivors down up K with
      | nil => exact absurd h hS
      | cons a b => exact ⟨a, b, rfl⟩
  all_goals
    have hr : alookup (diff_merged down up) K =
        some (srest.foldl mergeEntry (freshEntry e0)) := by
      rw [alookup_diff_merged, hsv]
      simp [mergeFold, mergeFold_some]
  · exact countP_eq_one_of_alookup
      (nodup_foldl_diffStep up down [] (by simp))
      (consistent_foldl_diffStep up down [] (by simp)) hr
  · refine ⟨srest.foldl mergeEntry (freshEntry e0),
      List.mem_map_of_mem Prod.snd (alookup_mem hr), ?_, ?_⟩
    · rw [foldl_mergeEntry_contentKey, contentKey_freshEntry]
      exact survivors_contentKey (hsv ▸ List.mem_cons_self e0 srest)
    · have he0 : e0 ∈ survivors down up K := hsv ▸ List.mem_cons_self e0 srest
      obtain ⟨p, hp, hpe⟩ := survivors_sub he0
      have hnd0 : e0.occurrences.Nodup := hpe ▸ hocc p hp
      rw [foldl_mergeEntry_occurrences, occurrences_freshEntry, hsv]
      show addOccs e0.occurrences (concatOccs srest) =
        dedupFirstSeen (e0.occurrences ++ concatOccs srest)
      rw [dedupFirstSeen, addOccs_append, addOccs_nil_of_nodup hnd0]

/-- Witness for C1 at the concrete two-file downstream tree dTreeW: the
content key ("ctx", "Hello") survives, appears once, and carries the
deduplicated union of the two files' occurrences. -/
theorem diff_completeness_dedup_witness :
    ∃ po : POFile, build_diff_pot dTreeW [] = Except.ok po ∧
      po.entries.countP
        (fun e => decide (contentKey e = ("ctx", "Hello"))) = 1 ∧
      ∃ e ∈ po.entries, contentKey e = ("ctx", "Hello") ∧
        e.occurrences =
          dedupFirstSeen (concatOccs (survivors downW [] ("ctx", "Hello"))) :=
  diff_completeness_dedup dTreeW [] downW [] ("ctx", "Hello")
    (by decide) (by decide) (by decide) (by decide)

/-- Reduction of build_diff_pot when the upstream scan fails. -/
theorem build_diff_pot_err_up {dTree uTree : CatTree} {msg : String}
    (hu : collect_pot_entries uTree = Except.error msg) :
    build_diff_pot dTree uTree = Except.error msg := by
  simp only [build_diff_pot, hu]
  rfl

/-- Reduction of build_diff_pot when the downstream scan fails. -/
theorem build_diff_pot_err_down {dTree uTree : CatTree}
    {up : List (FullKey × POEntry)} {msg : String}
    (hu : collect_pot_entries uTree = Except.ok up)
    (hd : collect_pot_entries dTree = Except.error msg) :
    build_diff_pot dTree uTree = Except.error msg := by
  simp only [build_diff_pot, hu, hd]
  rfl

/-- C6: a downstream entry whose full key matches upstream contributes
nothing: if additionally no other downstream entry with the same content
key survives the diff, no entry with that content key appears in the
diff catalog. -/
theorem diff_exclusivity
    (dTree uTree : CatTree) (down up : List (FullKey × POEntry))
    (p : FullKey × POEntry) (K : CKey)
    (hd : collect_pot_entries dTree = Except.ok down)
    (hu : collect_pot_entries uTree = Except.ok up)
    (hp : p ∈ down)
    (hmatch : noUpstreamMatch up p.1 = false)
    (hkey : contentKey p.2 = K)
    (hnone : ∀ q ∈ down, contentKey q.2 = K →
      noUpstreamMatch up q.1 = false) :
    ∃ po : POFile, build_diff_pot dTree uTree = Except.ok po ∧
      ∀ e ∈ po.entries, contentKey e ≠ K := by
  refine ⟨_, build_diff_pot_ok hd hu, ?_⟩
  have hsv : survivors down up K = [] := by
    rw [survivors_eq, List.filter_eq_nil_iff]
    intro e he
    obtain ⟨q, hq, hqe⟩ := List.mem_map.mp he
    obtain ⟨hqd, hkeep⟩ := List.mem_filter.mp hq
    simp only [decide_eq_true_eq]
    intro hck
    have := hnone q hqd (by rw [hqe, hck])
    rw [this] at hkeep
    exact Bool.false_ne_true hkeep
  have halo : alookup (diff_merged down up) K = none := by
    rw [alookup_diff_merged, hsv]
    rfl
  intro e he hck
  obtain ⟨q, hq, hqe⟩ := List.mem_map.mp he
  have hc : contentKey q.2 = q.1 := by
    rw [diff_merged_eq_foldl] at hq
    exact consistent_foldl_diffStep up down [] (by simp) q hq
  have hq1 : q.1 = K := by rw [← hc, hqe, hck]
  have hnot := (alookup_eq_none_iff _ K).mp halo
  exact hnot (hq1 ▸ List.mem_map_of_mem Prod.fst hq)

/-- Witness for C6: wE1 in dTree6 is fully matched by uTree6, and its
content key is absent from the diff catalog. -/
theorem diff_exclusivity_witness :
    ∃ po : POFile, build_diff_pot dTree6 uTree6 = Except.ok po ∧
      ∀ e ∈ po.entries, contentKey e ≠ ("ctx", "Hello") :=
  diff_exclusivity dTree6 uTree6 down6 up6
    (("f.pot", "ctx", "Hello"), wE1) ("ctx", "Hello")
    (by decide) (by decide) (by decide) (by decide) (by decide) (by decide)

/-- C10 (implicit): every entry of the diff catalog has an empty
translation, whatever translations the downstream entries carried. -/
theorem diff_template_translations_blank
    (dTree uTree : CatTree) (po : POFile)
    (h : build_diff_pot dTree uTree = Except.ok po) :
    ∀ e ∈ po.entries, e.msgstr = "" := by
  cases hu : collect_pot_entries uTree with
  | error msg =>
      rw [build_diff_pot_err_up hu] at h
      simp at h
  | ok up =>
      cases hd : collect_pot_entries dTree with
      | error msg =>
          rw [build_diff_pot_err_down hu hd] at h
          simp at h
      | ok down =>
          rw [build_diff_pot_ok hd hu] at h
          have hpo :
              ({ metadata := diffMetadata
                 entries := (diff_merged down up).map (fun p => p.2) }
                : POFile) = po := by
            injection h
          subst hpo
          intro e he
          obtain ⟨q, hq, hqe⟩ := List.mem_map.mp he
          rw [diff_merged_eq_foldl] at hq
          have := blank_foldl_diffStep up down [] (by simp) q hq
          rw [← hqe]
          exact this

/-- Witness for C10: the merged diff entry built from wE1 and wE2 (whose
sources carry no translation to copy anyway) has msgstr "". -/
theorem diff_template_translations_blank_witness :
    (mergeEntry (freshEntry wE1) wE2).msgstr = "" :=
  diff_template_translations_blank dTreeW [] po10 (by decide)
    (mergeEntry (freshEntry wE1) wE2) (by decide)

/-!  ### C9: behaviour of the two tree scans on parse failures -/

theorem scanTree_parseableOnly :
    ∀ (tree : CatTree)
      (acc : List (CKey × String) × List (String × List String)),
      scanTree acc tree = scanTree acc (parseableOnly tree) := by
  intro tree
  induction tree with
  | nil => intro acc; rfl
  | cons f rest ih =>
      intro acc
      obtain ⟨path, pr⟩ := f
      cases pr with
      | error msg =>
          show scanTree (scanFile acc (Except.error msg)) rest = _
          simp only [parseableOnly, List.filter_cons]
          rw [ih]
          rfl
      | ok es =>
          show scanTree (scanFile acc (Except.ok es)) rest = _
          simp only [parseableOnly, List.filter_cons]
          rw [ih]
          rfl

theorem collectPotAux_error :
    ∀ (pre : CatTree) (acc : List (FullKey × POEntry)) (path msg : String)
      (post : CatTree),
      (∀ f ∈ pre, f.2 ≠ Except.error msg → ∃ es, f.2 = Except.ok es) →
      (∀ f ∈ pre, ∃ es, (f.2 : ParseResult) = Except.ok es) →
      collectPotAux acc (pre ++ (path, Except.error msg) :: post) =
        Except.error msg := by
  intro pre
  induction pre with
  | nil => intro acc path msg post _ _; rfl
  | cons f rest ih =>
      intro acc path msg post _ hok
      obtain ⟨p0, pr0⟩ := f
      obtain ⟨es, hes⟩ := hok (p0, pr0) (by simp)
      simp only at hes
      subst hes
      show collectPotAux _ (rest ++ (path, Except.error msg) :: post) =
        Except.error msg
      exact ih _ path msg post (fun f hf _ => hok f (List.mem_cons_of_mem _ hf))
        (fun f hf => hok f (List.mem_cons_of_mem _ hf))

/-- C9 (corrected): the prefill translation scan (collect_translations)
skips malformed files and continues — its result is that of scanning
just the parseable files — but the pot-entry scan feeding the differ
(collect_pot_entries) has no such handling: the first malformed file
aborts the scan with its parse error. -/
theorem scan_parse_error_handling :
    (∀ tree : CatTree,
      collect_translations tree = collect_translations (parseableOnly tree)) ∧
    (∀ (pre : CatTree) (path msg : String) (post : CatTree),
      (∀ f ∈ pre, ∃ es, (f.2 : ParseResult) = Except.ok es) →
      collect_pot_entries (pre ++ (path, Except.error msg) :: post) =
        Except.error msg) := by
  constructor
  · intro tree
    show (let acc := scanTree ([], []) tree; (acc.1, by_msgid_of acc.2)) = _
    rw [scanTree_parseableOnly tree ([], [])]
    rfl
  · intro pre path msg post hok
    exact collectPotAux_error pre [] path msg post
      (fun f hf _ => hok f hf) hok

/-- Witness for C9 at the concrete badTree: the translation scan equals
the scan of its parseable part, while the pot scan aborts with the
parse error of bad.pot. -/
theorem scan_parse_error_handling_witness :
    collect_translations badTree =
      collect_translations (parseableOnly badTree) ∧
    collect_pot_entries
      ([("a.pot", Except.ok [wE1])] ++
        ("bad.pot", Except.error "malformed") ::
          [("c.pot", Except.ok [wE2])]) = Except.error "malformed" :=
  ⟨scan_parse_error_handling.1 badTree,
   scan_parse_error_handling.2 [("a.pot", Except.ok [wE1])] "bad.pot"
     "malformed" [("c.pot", Except.ok [wE2])]
     (by
       intro f hf
       simp only [List.mem_singleton] at hf
       subst hf
       exact ⟨[wE1], rfl⟩)⟩

/-- Counterexample to C9 as stated: with one malformed file in the
downstream tree, the template scan and the whole diff build abort with
the parse error instead of skipping the file, although scanning the
remaining files alone would succeed. -/
theorem scan_parse_error_counterexample :
    collect_pot_entries badTree = Except.error "malformed" ∧
    build_diff_pot badTree [] = Except.error "malformed" ∧
    collect_pot_entries (parseableOnly badTree) =
      Except.ok [(("a.pot", "ctx", "Hello"), wE1),
                 (("c.pot", "ctx", "Hello"), wE2)] := by
  refine ⟨by decide, ?_, by decide⟩
  exact @build_diff_pot_err_down badTree [] [] "malformed" (by decide)
    (by decide)

/-!  ### C3: the context-free fallback index -/

theorem addStrs_append (a : List String) (l1 l2 : List String) :
    addStrs a (l1 ++ l2) = addStrs (addStrs a l1) l2 := by
  simp [addStrs, List.foldl_append]

theorem addStrs_nil (a : List String) : addStrs a [] = a := rfl

theorem recStrs_recStrs (o : Option (List String)) (l1 l2 : List String) :
    recStrs (recStrs o l1) l2 = recStrs o (l1 ++ l2) := by
  cases o with
  | none =>
      cases l1 with
      | nil => rfl
      | cons x xs =>
          cases l2 with
          | nil => simp [recStrs, addStrs_nil]
          | cons y ys =>
              show some (addStrs (addStrs [] (x :: xs)) (y :: ys)) = _
              rw [← addStrs_append]
              rfl
  | some strs =>
      cases l1 with
      | nil =>
          cases l2 with
          | nil => simp [recStrs, addStrs_nil]
          | cons y ys => simp [recStrs, addStrs_nil]
      | cons x xs =>
          cases l2 with
          | nil =>
              show some (addStrs (addStrs strs (x :: xs)) []) = _
              rw [addStrs_nil]
              simp [recStrs]
          | cons y ys =>
              show some (addStrs (addStrs strs (x :: xs)) (y :: ys)) = _
              rw [← addStrs_append]
              rfl

theorem mem_addStrs_left {x : String} :
    ∀ (l strs : List String), x ∈ strs → x ∈ addStrs strs l := by
  intro l
  induction l with
  | nil => intro strs h; simpa [addStrs] using h
  | cons s rest ih =>
      intro strs h
      show x ∈ addStrs (if s ∈ strs then strs else strs ++ [s]) rest
      by_cases hs : s ∈ strs
      · simpa [hs] using ih strs h
      · simp only [hs, if_false]
        exact ih (strs ++ [s]) (List.mem_append_left _ h)

theorem mem_addStrs_right {x : String} :
    ∀ (l strs : List String), x ∈ l → x ∈ addStrs strs l := by
  intro l
  induction l with
  | nil => intro strs h; simp at h
  | cons s rest ih =>
      intro strs h
      show x ∈ addStrs (if s ∈ strs then strs else strs ++ [s]) rest
      rcases List.mem_cons.mp h with h1 | h1
      · subst h1
        by_cases hs : x ∈ strs
        · simpa [hs] using mem_addStrs_left rest strs hs
        · simp only [hs, if_false]
          exact mem_addStrs_left rest _ (List.mem_append_right _ (by simp))
      · by_cases hs : s ∈ strs
        · simpa [hs] using ih strs h1
        · simp only [hs, if_false]
          exact ih _ h1

theorem addStrs_eq_singleton {l strs : List String} {s : String}
    (h : addStrs strs l = [s]) : ∀ t ∈ l, t = s := by
  intro t ht
  have := mem_addStrs_right l strs ht
  rw [h] at this
  simpa using this

theorem addStrs_singleton_of_all {s : String} :
    ∀ l : List String, (∀ t ∈ l, t = s) → addStrs [s] l = [s] := by
  intro l
  induction l with
  | nil => intro _; rfl
  | cons t rest ih =>
      intro h
      have ht : t = s := h t (by simp)
      subst ht
      show addStrs (if t ∈ [t] then [t] else [t] ++ [t]) rest = [t]
      simp only [List.mem_singleton, if_pos rfl]
      exact ih (fun u hu => h u (List.mem_cons_of_mem _ hu))

theorem addStrs_nil_of_all {l : List String} {s : String}
    (hne : l ≠ []) (h : ∀ t ∈ l, t = s) : addStrs [] l = [s] := by
  cases l with
  | nil => exact absurd rfl hne
  | cons t rest =>
      have ht : t = s := h t (by simp)
      subst ht
      show addStrs (if t ∈ ([] : List String) then [] else [] ++ [t]) rest
        = [t]
      simp only [List.not_mem_nil, if_neg (fun h : False => h)]
      exact addStrs_singleton_of_all rest
        (fun u hu => h u (List.mem_cons_of_mem _ hu))

/-- Per-file evolution of the per-msgid value set. -/
theorem alookup_scanEntries (id : String) :
    ∀ (es : List POEntry)
      (acc : List (CKey × String) × List (String × List String)),
      alookup (es.foldl scanEntry acc).2 id =
        recStrs (alookup acc.2 id)
          ((es.filter
              (fun e => e.msgid = id && e.msgstr ≠ "" && !e.obsolete)).map
            (fun e => e.msgstr)) := by
  intro es
  induction es with
  | nil =>
      intro acc
      cases halo : alookup acc.2 id <;> simp [recStrs, halo, addStrs_nil]
  | cons e rest ih =>
      intro es_acc
      rw [List.foldl_cons, ih]
      by_cases hstr : e.msgstr = ""
      · have hskip : scanEntry es_acc e = es_acc := by simp [scanEntry, hstr]
        have hfil : (e :: rest).filter
            (fun e => e.msgid = id && e.msgstr ≠ "" && !e.obsolete) =
            rest.filter
              (fun e => e.msgid = id && e.msgstr ≠ "" && !e.obsolete) := by
          simp [List.filter_cons, hstr]
        rw [hskip, hfil]
      · by_cases hobs : e.obsolete = true
        · have hskip : scanEntry es_acc e = es_acc := by
            simp [scanEntry, hobs]
          have hfil : (e :: rest).filter
              (fun e => e.msgid = id && e.msgstr ≠ "" && !e.obsolete) =
              rest.filter
                (fun e => e.msgid = id && e.msgstr ≠ "" && !e.obsolete) := by
            simp [List.filter_cons, hobs]
          rw [hskip, hfil]
        · by_cases hid : e.msgid = id
          · have hstep : alookup (scanEntry es_acc e).2 id =
                recStrs (alookup es_acc.2 id) [e.msgstr] := by
              simp only [scanEntry]
              have hcond : (e.msgstr ≠ "" && !e.obsolete) = true := by
                simp [hstr, hobs]
              rw [hcond, if_pos rfl]
              show alookup (setKey es_acc.2 e.msgid _) id = _
              rw [alookup_setKey, if_pos hid.symm, hid]
              cases halo : alookup es_acc.2 id <;>
                simp [recStrs, addStrs, halo]
            have hfil : (e :: rest).filter
                (fun e => e.msgid = id && e.msgstr ≠ "" && !e.obsolete) =
                e :: rest.filter
                  (fun e => e.msgid = id && e.msgstr ≠ "" && !e.obsolete)
                := by
              simp [List.filter_cons, hid, hstr, hobs]
            rw [hstep, recStrs_recStrs, hfil]
            rfl
          · have hstep : alookup (scanEntry es_acc e).2 id =
                alookup es_acc.2 id := by
              simp only [scanEntry]
              have hcond : (e.msgstr ≠ "" && !e.obsolete) = true := by
                simp [hstr, hobs]
              rw [hcond, if_pos rfl]
              show alookup (setKey es_acc.2 e.msgid _) id = _
              rw [alookup_setKey, if_neg (fun h => hid h.symm)]
            have hfil : (e :: rest).filter
                (fun e => e.msgid = id && e.msgstr ≠ "" && !e.obsolete) =
                rest.filter
                  (fun e => e.msgid = id && e.msgstr ≠ "" && !e.obsolete)
                := by
              simp [List.filter_cons, hid]
            rw [hstep, hfil]

/-- Tree-level evolution of the per-msgid value set: parse failures
contribute nothing. -/
theorem alookup_scanTree (id : String) :
    ∀ (tree : CatTree)
      (acc : List (CKey × String) × List (String × List String)),
      alookup (scanTree acc tree).2 id =
        recStrs (alookup acc.2 id) (recordedTranslations tree id) := by
  intro tree
  induction tree with
  | nil =>
      intro acc
      cases halo : alookup acc.2 id <;>
        simp [scanTree, recordedTranslations, recStrs, halo, addStrs_nil]
  | cons f rest ih =>
      intro acc
      obtain ⟨path, pr⟩ := f
      cases pr with
      | error msg =>
          show alookup (scanTree (scanFile acc (Except.error msg)) rest).2 id
            = _
          rw [show scanFile acc (Except.error msg) = acc from rfl, ih]
          rfl
      | ok es =>
          show alookup (scanTree (scanFile acc (Except.ok es)) rest).2 id = _
          rw [show scanFile acc (Except.ok es) = es.foldl scanEntry acc from
            rfl, ih, alookup_scanEntries, recStrs_recStrs]
          rfl

/-- The per-msgid map keeps unique keys through one entry. -/
theorem nodup_scanEntry
    {acc : List (CKey × String) × List (String × List String)}
    (h : (acc.2.map Prod.fst).Nodup) (e : POEntry) :
    (((scanEntry acc e).2).map Prod.fst).Nodup := by
  by_cases hc : (e.msgstr ≠ "" && !e.obsolete) = true
  · simp only [scanEntry, hc, if_true]
    exact nodup_map_fst_setKey h _ _
  · simp only [scanEntry, hc, if_false]
    exact h

theorem nodup_scanEntries :
    ∀ (es : List POEntry)
      (acc : List (CKey × String) × List (String × List String)),
      (acc.2.map Prod.fst).Nodup →
      (((es.foldl scanEntry acc).2).map Prod.fst).Nodup := by
  intro es
  induction es with
  | nil => intro acc h; simpa using h
  | cons e rest ih =>
      intro acc h
      rw [List.foldl_cons]
      exact ih _ (nodup_scanEntry h e)

theorem nodup_scanTree :
    ∀ (tree : CatTree)
      (acc : List (CKey × String) × List (String × List String)),
      (acc.2.map Prod.fst).Nodup →
      (((scanTree acc tree).2).map Prod.fst).Nodup := by
  intro tree
  induction tree with
  | nil => intro acc h; simpa [scanTree] using h
  | cons f rest ih =>
      intro acc h
      obtain ⟨path, pr⟩ := f
      cases pr with
      | error msg => exact ih acc h
      | ok es =>
          show (((scanTree (es.foldl scanEntry acc) rest).2).map
            Prod.fst).Nodup
          exact ih _ (nodup_scanEntries es acc h)

theorem mem_fst_by_msgid_of {ms : List (String × List String)} {a : String}
    (h : a ∈ (by_msgid_of ms).map Prod.fst) : a ∈ ms.map Prod.fst := by
  induction ms with
  | nil => simpa [by_msgid_of] using h
  | cons p rest ih =>
      obtain ⟨k, strs⟩ := p
      cases strs with
      | nil =>
          simp only [by_msgid_of, List.filterMap_cons] at h
          exact List.mem_cons_of_mem _ (ih h)
      | cons s tail =>
          cases tail with
          | nil =>
              simp only [by_msgid_of, List.filterMap_cons] at h
              rcases List.mem_cons.mp h with h1 | h1
              · simp [h1]
              · exact List.mem_cons_of_mem _ (ih h1)
          | cons s2 tail2 =>
              simp only [by_msgid_of, List.filterMap_cons] at h
              exact List.mem_cons_of_mem _ (ih h)

/-- Lookup in the context-free fallback map: present exactly when the
recorded value set for the msgid is a singleton. -/
theorem alookup_by_msgid_of :
    ∀ {ms : List (String × List String)}, (ms.map Prod.fst).Nodup →
      ∀ (id : String),
        alookup (by_msgid_of ms) id =
          (match alookup ms id with
           | some [s] => some s
           | _ => none) := by
  intro ms
  induction ms with
  | nil => intro _ id; simp [by_msgid_of, alookup]
  | cons p rest ih =>
      intro hnd id
      obtain ⟨k, strs⟩ := p
      have hnd2 : (rest.map Prod.fst).Nodup := (List.nodup_cons.mp hnd).2
      have hnotin : k ∉ rest.map Prod.fst := (List.nodup_cons.mp hnd).1
      by_cases hik : id = k
      · subst hik
        have hnone : alookup (by_msgid_of rest) id = none := by
          rw [alookup_eq_none_iff]
          intro hmem
          exact hnotin (mem_fst_by_msgid_of hmem)
        cases strs with
        | nil =>
            simp only [by_msgid_of, List.filterMap_cons]
            rw [show alookup ((id, ([] : List String)) :: rest) id =
              some [] from by simp [alookup]]
            exact hnone
        | cons s tail =>
            cases tail with
            | nil =>
                simp only [by_msgid_of, List.filterMap_cons]
                simp [alookup]
            | cons s2 tail2 =>
                simp only [by_msgid_of, List.filterMap_cons]
                rw [show alookup ((id, s :: s2 :: tail2) :: rest) id =
                  some (s :: s2 :: tail2) from by simp [alookup]]
                exact hnone
      · have hrec : alookup ((k, strs) :: rest) id = alookup rest id := by
          simp [alookup, hik]
        rw [hrec]
        cases strs with
        | nil =>
            simp only [by_msgid_of, List.filterMap_cons]
            exact ih hnd2 id
        | cons s tail =>
            cases tail with
            | nil =>
                simp only [by_msgid_of, List.filterMap_cons]
                rw [show ∀ L : List (String × String),
                    alookup ((k, s) :: L) id = alookup L id from
                  fun L => by simp [alookup, hik]]
                exact ih hnd2 id
            | cons s2 tail2 =>
                simp only [by_msgid_of, List.filterMap_cons]
                exact ih hnd2 id

/-- C3 (corrected): byId contains an id, mapped to s, exactly when the
tree records at least one translation for that id and every recorded
(non-empty, non-obsolete) translation for it — across all files,
contexts, and repeated occurrences of the same content key — equals s.
Agreement of the distinct content keys' final byKey values is not
enough: a single content key recorded with two different translations
in two files also disqualifies the id. -/
theorem byid_ambiguity_characterisation (tree : CatTree) (id s : String) :
    alookup (collect_translations tree).2 id = some s ↔
      (recordedTranslations tree id ≠ [] ∧
       ∀ t ∈ recordedTranslations tree id, t = s) := by
  have hnd : (((scanTree ([], []) tree).2).map Prod.fst).Nodup :=
    nodup_scanTree tree ([], []) (by simp)
  have hmain : alookup (collect_translations tree).2 id =
      (match recStrs none (recordedTranslations tree id) with
       | some [t] => some t
       | _ => none) := by
    show alookup (by_msgid_of (scanTree ([], []) tree).2) id = _
    rw [alookup_by_msgid_of hnd id, alookup_scanTree id tree ([], [])]
    rfl
  rw [hmain]
  cases hrec : recordedTranslations tree id with
  | nil => simp [recStrs]
  | cons t0 trest =>
      constructor
      · intro h
        have hne : (t0 :: trest : List String) ≠ [] := by simp
        refine ⟨hne, ?_⟩
        simp only [recStrs, Option.getD_none] at h
        cases hadd : addStrs [] (t0 :: trest) with
        | nil => rw [hadd] at h; simp at h
        | cons u utail =>
            cases utail with
            | nil =>
                rw [hadd] at h
                simp only [Option.some_inj] at h
                subst h
                exact addStrs_eq_singleton hadd
            | cons u2 utail2 => rw [hadd] at h; simp at h
      · rintro ⟨-, hall⟩
        have : addStrs [] (t0 :: trest) = [s] :=
          addStrs_nil_of_all (by simp) hall
        simp only [recStrs, Option.getD_none, this]

/-- Counterexample to C3 as stated: in cxTree3 the only content key
sharing the id "X" is ("A", "X"), so every distinct content key sharing
"X" trivially maps to the same byKey translation, and yet "X" is absent
from byId, because the two files recorded two different translations for
that one key. -/
theorem byid_ambiguity_counterexample :
    (∃ p ∈ (collect_translations cxTree3).1, p.1.2 = "X") ∧
    (∀ p ∈ (collect_translations cxTree3).1,
      ∀ q ∈ (collect_translations cxTree3).1,
        p.1.2 = "X" → q.1.2 = "X" → p.2 = q.2) ∧
    alookup (collect_translations cxTree3).2 "X" = none := by decide

/-- Witness for C3 at the spec's own example tree: "Save" (all records
agree) is mapped to "Enregistrer"; "Open" (two contexts disagree) is
recorded with two values, hence absent, and a diff entry with id "Open"
and no exact-context match prefills to "". -/
theorem byid_ambiguity_witness :
    alookup (collect_translations wTreeSave).2 "Save" = some "Enregistrer" ∧
    alookup (collect_translations wTreeSave).2 "Open" = none ∧
    lookup_translation ("Z", "Open") "Open" (collect_translations wTreeSave).1
      (collect_translations wTreeSave).2 = "" :=
  ⟨(byid_ambiguity_characterisation wTreeSave "Save" "Enregistrer").mpr
      (by decide),
   by decide, by decide⟩

/-!  ### C2 / C5: the update_existing_po index and choice function -/

theorem alookup_foldl_setKey_entries (K : CKey) :
    ∀ (l : List POEntry) (acc : List (CKey × POEntry)),
      alookup (l.foldl (fun idx e => setKey idx (contentKey e) e) acc) K =
        (match lastWith l K with
         | some r => some r
         | none => alookup acc K) := by
  intro l
  induction l with
  | nil => intro acc; simp [lastWith]
  | cons e rest ih =>
      intro acc
      rw [List.foldl_cons, ih]
      show _ = (match lastWith (e :: rest) K with
        | some r => some r
        | none => alookup acc K)
      cases hrest : lastWith rest K with
      | some r => simp [lastWith, hrest]
      | none =>
          rw [alookup_setKey]
          by_cases hck : contentKey e = K
          · simp [lastWith, hrest, hck]
          · have hck2 : ¬ K = contentKey e := fun h => hck h.symm
            simp [lastWith, hrest, hck, hck2]

theorem alookup_buildIndex (l : List POEntry) (K : CKey) :
    alookup (buildIndex l) K = lastWith l K := by
  show alookup (l.foldl (fun idx e => setKey idx (contentKey e) e) []) K = _
  rw [alookup_foldl_setKey_entries]
  cases lastWith l K <;> simp [alookup]

theorem lastWith_mem {l : List POEntry} {K : CKey} {r : POEntry}
    (h : lastWith l K = some r) : r ∈ l ∧ contentKey r = K := by
  induction l with
  | nil => simp [lastWith] at h
  | cons e rest ih =>
      simp only [lastWith] at h
      cases hrest : lastWith rest K with
      | some r2 =>
          rw [hrest] at h
          simp only [Option.some_inj] at h
          subst h
          obtain ⟨h1, h2⟩ := ih hrest
          exact ⟨List.mem_cons_of_mem _ h1, h2⟩
      | none =>
          rw [hrest] at h
          by_cases hck : contentKey e = K
          · rw [if_pos hck] at h
            simp only [Option.some_inj] at h
            subst h
            exact ⟨by simp, hck⟩
          · rw [if_neg hck] at h
            simp at h

theorem lastWith_isSome {l : List POEntry} {K : CKey} {e : POEntry}
    (he : e ∈ l) (hck : contentKey e = K) :
    ∃ r, lastWith l K = some r := by
  induction l with
  | nil => simp at he
  | cons a rest ih =>
      show ∃ r, (match lastWith rest K with
        | some r => some r
        | none => if contentKey a = K then some a else none) = some r
      cases hrest : lastWith rest K with
      | some r => exact ⟨r, rfl⟩
      | none =>
          rcases List.mem_cons.mp he with h1 | h1
          · subst h1
            refine ⟨e, ?_⟩
            simp [hck]
          · obtain ⟨r, hr⟩ := ih h1
            rw [hrest] at hr
            simp at hr

theorem lastWith_eq_find_of_nodup :
    ∀ {l : List POEntry}, (l.map contentKey).Nodup → ∀ (K : CKey),
      lastWith l K = l.find? (fun e => decide (contentKey e = K)) := by
  intro l
  induction l with
  | nil => intro _ K; rfl
  | cons e rest ih =>
      intro hnd K
      have hnotin : contentKey e ∉ rest.map contentKey :=
        (List.nodup_cons.mp hnd).1
      have hnd2 : (rest.map contentKey).Nodup := (List.nodup_cons.mp hnd).2
      by_cases hck : contentKey e = K
      · have hrest : lastWith rest K = none := by
          cases hr : lastWith rest K with
          | none => rfl
          | some r =>
              obtain ⟨hmem, hrk⟩ := lastWith_mem hr
              exact absurd (hck ▸ hrk ▸ List.mem_map_of_mem contentKey hmem)
                hnotin
        show (match lastWith rest K with
          | some r => some r
          | none => if contentKey e = K then some e else none) = _
        rw [hrest, List.find?_cons_of_pos _ (by simp [hck])]
        simp [hck]
      · show (match lastWith rest K with
          | some r => some r
          | none => if contentKey e = K then some e else none) = _
        rw [List.find?_cons_of_neg _ (by simp [hck]), ← ih hnd2 K]
        cases hr : lastWith rest K <;> simp [hck]

/-- Under unique content keys, searching for a non-blank entry with key
K factors through the plain key search. -/
theorem find_nonblank_of_nodup :
    ∀ {l : List POEntry}, (l.map contentKey).Nodup → ∀ (K : CKey),
      l.find? (fun e => contentKey e = K && e.msgstr ≠ "") =
        (match l.find? (fun e => decide (contentKey e = K)) with
         | some ex => if ex.msgstr ≠ "" then some ex else none
         | none => none) := by
  intro l
  induction l with
  | nil => intro _ K; rfl
  | cons e rest ih =>
      intro hnd K
      have hnotin : contentKey e ∉ rest.map contentKey :=
        (List.nodup_cons.mp hnd).1
      have hnd2 : (rest.map contentKey).Nodup := (List.nodup_cons.mp hnd).2
      by_cases hck : contentKey e = K
      · have hplain : (e :: rest).find?
            (fun x => decide (contentKey x = K)) = some e :=
          List.find?_cons_of_pos _ (by simp [hck])
        by_cases hms : e.msgstr = ""
        · have hconj : (e :: rest).find?
              (fun x => contentKey x = K && x.msgstr ≠ "") =
              rest.find? (fun x => contentKey x = K && x.msgstr ≠ "") :=
            List.find?_cons_of_neg _ (by simp [hms])
          have hnone : rest.find?
              (fun x => contentKey x = K && x.msgstr ≠ "") = none := by
            rw [List.find?_eq_none]
            intro x hx hxp
            simp only [Bool.and_eq_true, decide_eq_true_eq] at hxp
            apply hnotin
            have hcx : contentKey x = contentKey e := by rw [hxp.1, hck]
            exact hcx ▸ List.mem_map_of_mem contentKey hx
          rw [hconj, hnone, hplain]
          simp [hms]
        · have hconj : (e :: rest).find?
              (fun x => contentKey x = K && x.msgstr ≠ "") = some e :=
            List.find?_cons_of_pos _ (by simp [hck, hms])
          rw [hconj, hplain]
          simp [hms]
      · have hplain : (e :: rest).find?
            (fun x => decide (contentKey x = K)) =
            rest.find? (fun x => decide (contentKey x = K)) :=
          List.find?_cons_of_neg _ (by simp [hck])
        have hconj : (e :: rest).find?
            (fun x => contentKey x = K && x.msgstr ≠ "") =
            rest.find? (fun x => contentKey x = K && x.msgstr ≠ "") :=
          List.find?_cons_of_neg _ (by simp [hck])
        rw [hconj, hplain]
        exact ih hnd2 K

/-- With an index holding only non-empty translations, the source's
empty-string fallthrough coincides with the spec's try-byKey-then-byId
cascade. -/
theorem lookup_translation_eq_spec (K : CKey) (msgid : String)
    (byKey : List (CKey × String)) (byId : List (String × String))
    (hbk : ∀ p ∈ byKey, p.2 ≠ "") :
    lookup_translation K msgid byKey byId =
      (match alookup byKey K with
       | some t => t
       | none => (alookup byId msgid).getD "") := by
  cases h : alookup byKey K with
  | none => simp [lookup_translation, h]
  | some t =>
      have ht : t ≠ "" := hbk (K, t) (alookup_mem h)
      simp [lookup_translation, h, ht]

/-- C2 (confirmed, for review catalogs with unique content keys and an
exact-context index holding only non-empty translations — both
data-model invariants of the spec): the merged output is exactly one
clone per diff entry, in diff order, whose translation follows the
strict precedence existing non-empty review translation, then byKey,
then byId, then blank; in particular an existing non-empty review
translation is never replaced by an index translation. -/
theorem prefill_precedence (pot existing : POFile)
    (byKey : List (CKey × String)) (byId : List (String × String))
    (hUniq : (existing.entries.map contentKey).Nodup)
    (hbk : ∀ p ∈ byKey, p.2 ≠ "") :
    update_existing_po pot existing byKey byId =
      { metadata := existing.metadata
        entries := pot.entries.map
          (fun pe => clone_entry pe (specChoose existing byKey byId pe)) }
    := by
  have hent : (update_existing_po pot existing byKey byId).entries =
      pot.entries.map
        (fun pe => clone_entry pe (specChoose existing byKey byId pe)) := by
    show pot.entries.map _ = _
    apply List.map_congr_left
    intro pe _
    show (match alookup (buildIndex existing.entries) (contentKey pe) with
      | some ex => if ex.msgstr ≠ "" then clone_entry pe ex.msgstr
          else clone_entry pe
            (lookup_translation (contentKey pe) pe.msgid byKey byId)
      | none => clone_entry pe
          (lookup_translation (contentKey pe) pe.msgid byKey byId)) = _
    rw [alookup_buildIndex, lastWith_eq_find_of_nodup hUniq]
    have hsc : specChoose existing byKey byId pe =
        (match
          (match existing.entries.find?
              (fun x => decide (contentKey x = contentKey pe)) with
           | some ex => if ex.msgstr ≠ "" then some ex else none
           | none => none) with
         | some ex => ex.msgstr
         | none =>
             match alookup byKey (contentKey pe) with
             | some t => t
             | none => (alookup byId pe.msgid).getD "") := by
      unfold specChoose
      rw [find_nonblank_of_nodup hUniq]
    rw [hsc]
    cases hf : existing.entries.find?
        (fun x => decide (contentKey x = contentKey pe)) with
    | none =>
        show clone_entry pe (lookup_translation (contentKey pe) pe.msgid
          byKey byId) = _
        rw [lookup_translation_eq_spec _ _ _ _ hbk]
    | some ex =>
        by_cases hms : ex.msgstr = ""
        · show (if ex.msgstr ≠ "" then clone_entry pe ex.msgstr
            else clone_entry pe (lookup_translation (contentKey pe) pe.msgid
              byKey byId)) = _
          rw [if_neg (fun hc => hc hms),
            lookup_translation_eq_spec _ _ _ _ hbk]
          simp [hms]
        · show (if ex.msgstr ≠ "" then clone_entry pe ex.msgstr
            else clone_entry pe (lookup_translation (contentKey pe) pe.msgid
              byKey byId)) = _
          rw [if_pos hms]
          simp [hms]
  calc update_existing_po pot existing byKey byId
      = { metadata := (update_existing_po pot existing byKey byId).metadata
          entries := (update_existing_po pot existing byKey byId).entries }
        := rfl
    _ = { metadata := existing.metadata
          entries := pot.entries.map
            (fun pe => clone_entry pe (specChoose existing byKey byId pe)) }
        := by rw [hent]; rfl

/-- Witness for C2: the one-entry diff potW against the review catalog
exW (human translation X) and the index byKeyW (translation Y): the
output preserves X. -/
theorem prefill_precedence_witness :
    update_existing_po potW exW byKeyW [] =
      { metadata := exW.metadata
        entries := potW.entries.map
          (fun pe => clone_entry pe (specChoose exW byKeyW [] pe)) } :=
  prefill_precedence potW exW byKeyW [] (by decide) (by decide)

/-!  ### C5: idempotence of the merge -/

theorem update_existing_po_eq_map (pot existing : POFile)
    (byKey : List (CKey × String)) (byId : List (String × String)) :
    update_existing_po pot existing byKey byId =
      { metadata := existing.metadata
        entries := pot.entries.map
          (fun pe => clone_entry pe (chooseT existing byKey byId pe)) }
    := by
  have hent : (update_existing_po pot existing byKey byId).entries =
      pot.entries.map
        (fun pe => clone_entry pe (chooseT existing byKey byId pe)) := by
    show pot.entries.map _ = _
    apply List.map_congr_left
    intro pe _
    show (match alookup (buildIndex existing.entries) (contentKey pe) with
      | some ex => if ex.msgstr ≠ "" then clone_entry pe ex.msgstr
          else clone_entry pe
            (lookup_translation (contentKey pe) pe.msgid byKey byId)
      | none => clone_entry pe
          (lookup_translation (contentKey pe) pe.msgid byKey byId)) = _
    unfold chooseT
    cases alookup (buildIndex existing.entries) (contentKey pe) with
    | none => rfl
    | some ex => by_cases hms : ex.msgstr = "" <;> simp [hms]
  calc update_existing_po pot existing byKey byId
      = { metadata := (update_existing_po pot existing byKey byId).metadata
          entries := (update_existing_po pot existing byKey byId).entries }
        := rfl
    _ = { metadata := existing.metadata
          entries := pot.entries.map
            (fun pe => clone_entry pe (chooseT existing byKey byId pe)) }
        := by rw [hent]; rfl

theorem chooseT_congr {existing : POFile} {byKey : List (CKey × String)}
    {byId : List (String × String)} {pe1 pe2 : POEntry}
    (h : contentKey pe1 = contentKey pe2) :
    chooseT existing byKey byId pe1 = chooseT existing byKey byId pe2 := by
  have hm : pe1.msgid = pe2.msgid := congrArg Prod.snd h
  unfold chooseT
  rw [h, hm]

theorem chooseT_blank {existing : POFile} {byKey : List (CKey × String)}
    {byId : List (String × String)} {pe : POEntry}
    (h : chooseT existing byKey byId pe = "") :
    chooseT existing byKey byId pe =
      lookup_translation (contentKey pe) pe.msgid byKey byId := by
  unfold chooseT at h ⊢
  cases halo : alookup (buildIndex existing.entries) (contentKey pe) with
  | none => rfl
  | some ex =>
      rw [halo] at h
      replace h : (if ex.msgstr ≠ "" then ex.msgstr
        else lookup_translation (contentKey pe) pe.msgid byKey byId) = ""
        := h
      show (if ex.msgstr ≠ "" then ex.msgstr
        else lookup_translation (contentKey pe) pe.msgid byKey byId) = _
      by_cases hms : ex.msgstr = ""
      · simp [hms]
      · rw [if_pos hms] at h
        exact absurd h hms

theorem lastWith_map (g : POEntry → POEntry)
    (hg : ∀ q, contentKey (g q) = contentKey q) :
    ∀ (l : List POEntry) (K : CKey),
      lastWith (l.map g) K = (lastWith l K).map g := by
  intro l
  induction l with
  | nil => intro K; rfl
  | cons e rest ih =>
      intro K
      show (match lastWith (rest.map g) K with
        | some r => some r
        | none => if contentKey (g e) = K then some (g e) else none) =
        Option.map g (match lastWith rest K with
          | some r => some r
          | none => if contentKey e = K then some e else none)
      rw [ih, hg]
      cases lastWith rest K with
      | some r => rfl
      | none => by_cases hck : contentKey e = K <;> simp [hck]

theorem chooseT_round2 (pot existing out1 : POFile)
    (byKey : List (CKey × String)) (byId : List (String × String))
    (pe : POEntry)
    (hentries : out1.entries = pot.entries.map
      (fun q => clone_entry q (chooseT existing byKey byId q)))
    (hpe : pe ∈ pot.entries) :
    chooseT out1 byKey byId pe = chooseT existing byKey byId pe := by
  have hg : ∀ q, contentKey
      (clone_entry q (chooseT existing byKey byId q)) = contentKey q :=
    fun q => rfl
  obtain ⟨r, hr⟩ := lastWith_isSome hpe rfl
  obtain ⟨hrmem, hrk⟩ := lastWith_mem hr
  have hcr : chooseT existing byKey byId r = chooseT existing byKey byId pe :=
    chooseT_congr hrk
  unfold chooseT
  rw [hentries, alookup_buildIndex, lastWith_map _ hg, hr]
  show (if (clone_entry r (chooseT existing byKey byId r)).msgstr ≠ ""
      then (clone_entry r (chooseT existing byKey byId r)).msgstr
      else lookup_translation (contentKey pe) pe.msgid byKey byId) = _
  show (if chooseT existing byKey byId r ≠ ""
      then chooseT existing byKey byId r
      else lookup_translation (contentKey pe) pe.msgid byKey byId) = _
  rw [hcr]
  by_cases hb : chooseT existing byKey byId pe = ""
  · rw [if_neg (fun hc => hc hb)]
    exact (chooseT_blank hb).symm
  · rw [if_pos hb]
    rfl

/-- C5 (confirmed): merging the diff catalog a second time, with the
first merge's output as the existing review catalog and the same
indices, reproduces the first merge's output exactly: every entry
already carries either a preserved non-empty translation or the same
prefill the second run would compute again. -/
theorem update_existing_po_idempotent (pot existing : POFile)
    (byKey : List (CKey × String)) (byId : List (String × String)) :
    update_existing_po pot (update_existing_po pot existing byKey byId)
      byKey byId = update_existing_po pot existing byKey byId := by
  rw [update_existing_po_eq_map pot existing byKey byId]
  rw [update_existing_po_eq_map pot
    { metadata := existing.metadata
      entries := pot.entries.map
        (fun pe => clone_entry pe (chooseT existing byKey byId pe)) }
    byKey byId]
  congr 1
  apply List.map_congr_left
  intro pe hpe
  have := chooseT_round2 pot existing
    { metadata := existing.metadata
      entries := pot.entries.map
        (fun q => clone_entry q (chooseT existing byKey byId q)) }
    byKey byId pe rfl hpe
  rw [this]

/-!  ### C7: obsolete deduplication -/

theorem isObsoleteDup_iff (entries : List POEntry) (e : POEntry) :
    isObsoleteDup entries e = true ↔
      e.obsolete = true ∧
        ∃ a ∈ entries, a.obsolete = false ∧ rawKey a = rawKey e := by
  simp only [isObsoleteDup, Bool.and_eq_true, decide_eq_true_eq,
    List.mem_map, List.mem_filter, Bool.not_eq_true']
  constructor
  · rintro ⟨h1, a, ⟨ha, hao⟩, hk⟩
    exact ⟨h1, a, ha, hao, hk⟩
  · rintro ⟨h1, a, ha, hao, hk⟩
    exact ⟨h1, a, ⟨ha, hao⟩, hk⟩

/-- C7 (corrected; the catalog model's obsolete-sublist removal is
modelled from the spec, polib being external to the repository): the
dedup step compares raw (msgctxt, msgid) pairs, without normalising a
missing context to the empty string the way content keys do. It removes
exactly the obsolete entries whose raw pair matches an active entry's
raw pair, keeps every other entry — including an obsolete entry whose
content key coincides with an active entry's but whose raw context
representation differs (None versus "") — reports a change exactly when
such a raw-pair duplicate exists, and leaves the entry list untouched
when it reports none. -/
theorem obsolete_dedup (entries : List POEntry) :
    (∀ e ∈ (remove_obsolete_duplicates entries).1, e ∈ entries) ∧
    (∀ e ∈ (remove_obsolete_duplicates entries).1, e.obsolete = true →
      ∀ a ∈ entries, a.obsolete = false → rawKey a ≠ rawKey e) ∧
    (∀ e ∈ entries,
      (e.obsolete = true →
        ∀ a ∈ entries, a.obsolete = false → rawKey a ≠ rawKey e) →
      e ∈ (remove_obsolete_duplicates entries).1) ∧
    ((remove_obsolete_duplicates entries).2 = false →
      (remove_obsolete_duplicates entries).1 = entries) ∧
    ((remove_obsolete_duplicates entries).2 = true ↔
      ∃ e ∈ entries, e.obsolete = true ∧
        ∃ a ∈ entries, a.obsolete = false ∧ rawKey a = rawKey e) := by
  have hnodup : ∀ e, (isObsoleteDup entries e = false) ↔
      ¬ (e.obsolete = true ∧
        ∃ a ∈ entries, a.obsolete = false ∧ rawKey a = rawKey e) := by
    intro e
    rw [← isObsoleteDup_iff]
    simp
  by_cases hemp : (entries.filter (isObsoleteDup entries)).isEmpty = true
  · have hres : remove_obsolete_duplicates entries = (entries, false) := by
      simp [remove_obsolete_duplicates, hemp]
    have hall : ∀ e ∈ entries, isObsoleteDup entries e = false := by
      intro e he
      have : entries.filter (isObsoleteDup entries) = [] :=
        List.isEmpty_iff.mp hemp
      by_contra hne
      have hmem : e ∈ entries.filter (isObsoleteDup entries) :=
        List.mem_filter.mpr ⟨he, Bool.eq_true_of_ne_false hne⟩
      rw [this] at hmem
      simp at hmem
    rw [hres]
    refine ⟨fun e he => he, ?_, fun e he _ => he, fun _ => rfl, ?_⟩
    · intro e he hobs a ha hao hk
      exact ((hnodup e).mp (hall e he)) ⟨hobs, a, ha, hao, hk⟩
    · constructor
      · intro hcontra
        simp at hcontra
      · rintro ⟨e, he, hobs, a, ha, hao, hk⟩
        exact absurd ((isObsoleteDup_iff entries e).mpr ⟨hobs, a, ha, hao, hk⟩)
          (by simp [hall e he])
  · have hres : remove_obsolete_duplicates entries =
        (entries.filter (fun e => !isObsoleteDup entries e), true) := by
      simp [remove_obsolete_duplicates, hemp]
    obtain ⟨w, hw⟩ : ∃ w, w ∈ entries.filter (isObsoleteDup entries) := by
      cases hfil : entries.filter (isObsoleteDup entries) with
      | nil => rw [hfil] at hemp; simp at hemp
      | cons a b => exact ⟨a, hfil ▸ List.mem_cons_self a b⟩
    obtain ⟨hwmem, hwdup⟩ := List.mem_filter.mp hw
    rw [hres]
    refine ⟨fun e he => List.mem_of_mem_filter he, ?_, ?_, ?_, ?_⟩
    · intro e he hobs a ha hao hk
      have := List.of_mem_filter he
      simp only [Bool.not_eq_true'] at this
      exact ((hnodup e).mp this) ⟨hobs, a, ha, hao, hk⟩
    · intro e he hcl
      refine List.mem_filter.mpr ⟨he, ?_⟩
      simp only [Bool.not_eq_true']
      rw [hnodup e]
      rintro ⟨hobs, a, ha, hao, hk⟩
      exact hcl hobs a ha hao hk
    · intro hcontra
      simp at hcontra
    · constructor
      · intro _
        obtain ⟨hobs, a, ha, hao, hk⟩ :=
          (isObsoleteDup_iff entries w).mp hwdup
        exact ⟨w, hwmem, hobs, a, ha, hao, hk⟩
      · intro _
        rfl

/-- Witness for C7 at a concrete file: the obsolete duplicate oDup of
the active oAct is removed, the unrelated obsolete oLone is kept, the
change is reported; and the duplicate-free file is left untouched. -/
theorem obsolete_dedup_witness :
    remove_obsolete_duplicates [oAct, oDup, oLone] = ([oAct, oLone], true) ∧
    remove_obsolete_duplicates [oAct, oLone] = ([oAct, oLone], false) ∧
    oDup ∈ [oAct, oDup, oLone] ∧
    (oDup ∉ (remove_obsolete_duplicates [oAct, oDup, oLone]).1 ∧
     oLone ∈ (remove_obsolete_duplicates [oAct, oDup, oLone]).1) := by
  refine ⟨by decide, by decide, by decide, ?_, ?_⟩
  · intro hmem
    have := (obsolete_dedup [oAct, oDup, oLone]).2.1 oDup hmem (by decide)
    exact this oAct (by decide) (by decide) (by decide)
  · exact (obsolete_dedup [oAct, oDup, oLone]).2.2.1 oLone (by decide)
      (by decide)

/-!  ### C8: retrofit translation application -/

theorem removeFirst_not_mem {l : List String} {s : String}
    (hmem : s ∈ l) (hcount : l.count s ≤ 1) : s ∉ removeFirst l s := by
  induction l with
  | nil => simp at hmem
  | cons x rest ih =>
      by_cases hx : x = s
      · subst hx
        rw [show removeFirst (x :: rest) x = rest from by simp [removeFirst]]
        have hc : rest.count x = 0 := by
          rw [List.count_cons_self] at hcount
          omega
        exact List.count_eq_zero.mp hc
      · rw [show removeFirst (x :: rest) s = x :: removeFirst rest s from by
          simp [removeFirst, hx]]
        have hmem2 : s ∈ rest := by
          rcases List.mem_cons.mp hmem with h | h
          · exact absurd h.symm hx
          · exact h
        have hcount2 : rest.count s ≤ 1 := by
          rw [List.count_cons_of_ne (fun h => hx h.symm)] at hcount
          exact hcount
        intro hin
        rcases List.mem_cons.mp hin with h | h
        · exact hx h.symm
        · exact ih hmem2 hcount2 h

/-- C8 (corrected): when a branch entry's content key has a finished
review translation that differs from its current translation, the
retrofit overwrites the translation, clears the needs-review flag (for
entries carrying at most one fuzzy marker, as parsed files do) and
reports the change; but an entry whose translation already equals the
finished one is left entirely unchanged — including a stale fuzzy flag —
and an entry with no finished review translation is left unchanged;
retrofit_tree applies this entry-wise to every file of the branch
tree. -/
theorem retrofit_application
    (review : List POEntry) (e : POEntry) (t : String)
    (hmatch : alookup (collect_replacements review) (contentKey e) = some t)
    (hdiff : e.msgstr ≠ t)
    (hfz : e.flags.count "fuzzy" ≤ 1) :
    ((retrofit_entry (collect_replacements review) e).1.msgstr = t ∧
     "fuzzy" ∉ (retrofit_entry (collect_replacements review) e).1.flags ∧
     (retrofit_entry (collect_replacements review) e).2 = true) ∧
    (∀ e2 : POEntry,
      alookup (collect_replacements review) (contentKey e2) =
        some e2.msgstr →
      retrofit_entry (collect_replacements review) e2 = (e2, false)) ∧
    (∀ e3 : POEntry,
      alookup (collect_replacements review) (contentKey e3) = none →
      retrofit_entry (collect_replacements review) e3 = (e3, false)) ∧
    (∀ (tree : List (String × List POEntry)) (path : String)
        (es : List POEntry), (path, es) ∈ tree →
      (path,
        es.map (fun x => (retrofit_entry (collect_replacements review) x).1))
        ∈ retrofit_tree (collect_replacements review) tree) := by
  refine ⟨⟨?_, ?_, ?_⟩, ?_, ?_, ?_⟩
  · simp [retrofit_entry, hmatch, hdiff]
  · simp only [retrofit_entry, hmatch]
    rw [if_pos hdiff]
    show "fuzzy" ∉ (if "fuzzy" ∈ e.flags then removeFirst e.flags "fuzzy"
      else e.flags)
    by_cases hin : "fuzzy" ∈ e.flags
    · rw [if_pos hin]
      exact removeFirst_not_mem hin hfz
    · rw [if_neg hin]
      exact hin
  · simp [retrofit_entry, hmatch, hdiff]
  · intro e2 h2
    simp [retrofit_entry, h2]
  · intro e3 h3
    simp [retrofit_entry, h3]
  · intro tree path es hmem
    exact List.mem_map_of_mem _ hmem

/-- Counterexample to C8 as stated: rEq's content key has the finished
review translation "Bonjour", which rEq already carries, so the claim
asks for its needs-review flag to be cleared — but the code leaves the
entry untouched, fuzzy flag included (the flag is only cleared inside
the translation-differs branch). -/
theorem retrofit_fuzzy_counterexample :
    alookup (collect_replacements reviewW) (contentKey rEq) =
      some "Bonjour" ∧
    rEq.msgstr = "Bonjour" ∧
    "fuzzy" ∈ rEq.flags ∧
    retrofit_entry (collect_replacements reviewW) rEq = (rEq, false) ∧
    "fuzzy" ∈ (retrofit_entry (collect_replacements reviewW) rEq).1.flags
    := by decide

/-- Witness for C8 at the concrete outdated entry rOld: its translation
is overwritten with "Bonjour", the fuzzy flag is cleared, and the change
is reported. -/
theorem retrofit_application_witness :
    ((retrofit_entry (collect_replacements reviewW) rOld).1.msgstr =
        "Bonjour" ∧
     "fuzzy" ∉ (retrofit_entry (collect_replacements reviewW) rOld).1.flags ∧
     (retrofit_entry (collect_replacements reviewW) rOld).2 = true) ∧
    (∀ e2 : POEntry,
      alookup (collect_replacements reviewW) (contentKey e2) =
        some e2.msgstr →
      retrofit_entry (collect_replacements reviewW) e2 = (e2, false)) ∧
    (∀ e3 : POEntry,
      alookup (collect_replacements reviewW) (contentKey e3) = none →
      retrofit_entry (collect_replacements reviewW) e3 = (e3, false)) ∧
    (∀ (tree : List (String × List POEntry)) (path : String)
        (es : List POEntry), (path, es) ∈ tree →
      (path,
        es.map
          (fun x => (retrofit_entry (collect_replacements reviewW) x).1))
        ∈ retrofit_tree (collect_replacements reviewW) tree) :=
  retrofit_application reviewW rOld "Bonjour" (by decide) (by decide)
    (by decide)

/-!  ### C4: hunk classification -/

theorem specLine_of_atat {l : List Char}
    (h : ("@@".toList).isPrefixOf l = true) :
    identityChangeLine l = false ∧ realTranslationChangeLine l = false := by
  rw [show "@@".toList = ['@', '@'] from rfl] at h
  cases l with
  | nil => simp [List.isPrefixOf] at h
  | cons c t =>
      simp only [List.isPrefixOf, Bool.and_eq_true, beq_iff_eq] at h
      obtain ⟨hc, h2⟩ := h
      cases t with
      | nil => simp [List.isPrefixOf] at h2
      | cons c2 t2 =>
          simp only [List.isPrefixOf, Bool.and_eq_true, beq_iff_eq] at h2
          obtain ⟨hc2, -⟩ := h2
          subst hc
          subst hc2
          exact ⟨rfl, rfl⟩

theorem matchQuoteStart_of_msgstr {l : List Char}
    (h : matchMsgstrStart l = true) : matchQuoteStart l = false := by
  cases l with
  | nil => simp [matchMsgstrStart] at h
  | cons c t =>
      simp only [matchMsgstrStart, Bool.and_eq_true] at h
      obtain ⟨-, hpre⟩ := h
      cases t with
      | nil =>
          rw [show "msgstr".toList = ['m', 's', 'g', 's', 't', 'r'] from
            rfl] at hpre
          simp [List.isPrefixOf] at hpre
      | cons c2 t2 =>
          have h2 : c2 = 'm' := by
            rw [show "msgstr".toList = ['m', 's', 'g', 's', 't', 'r'] from
              rfl] at hpre
            simp only [List.isPrefixOf, Bool.and_eq_true, beq_iff_eq] at hpre
            exact hpre.1.symm
          subst h2
          rfl

/-- The scan of _hunk_has_real_changes is an existential over the
per-line spec classification. -/
theorem hunk_has_real_eq_any :
    ∀ h : List (List Char), hunk_has_real_changes h =
      h.any (fun l => identityChangeLine l || realTranslationChangeLine l)
    := by
  intro h
  induction h with
  | nil => rfl
  | cons l rest ih =>
      rw [List.any_cons, ← ih]
      by_cases hpre : ['@', '@'] <+: l
      · have hpre2 : ("@@".toList).isPrefixOf l = true := by simpa using hpre
        obtain ⟨h1, h2⟩ := specLine_of_atat hpre2
        simp [hunk_has_real_changes, hpre, h1, h2]
      · by_cases hctx :
            matchTagWS ['m', 's', 'g', 'c', 't', 'x', 't'] l = true
        · simp [hunk_has_real_changes, hpre, hctx, identityChangeLine]
        · by_cases hid : matchTagWS ['m', 's', 'g', 'i', 'd'] l = true
          · simp [hunk_has_real_changes, hpre, hctx, hid, identityChangeLine]
          · by_cases hms : matchMsgstrStart l = true
            · have hq0 := matchQuoteStart_of_msgstr hms
              by_cases hemp : matchEmptyMsgstr l = true
              · simp [hunk_has_real_changes, hpre, hctx, hid, hms, hemp, hq0,
                  identityChangeLine, realTranslationChangeLine]
              · by_cases hkw : hasHeaderKeyword l = true
                · simp [hunk_has_real_changes, hpre, hctx, hid, hms, hemp,
                    hkw, hq0, identityChangeLine, realTranslationChangeLine]
                · simp [hunk_has_real_changes, hpre, hctx, hid, hms, hemp,
                    hkw, hq0, identityChangeLine, realTranslationChangeLine]
            · by_cases hq : matchQuoteStart l = true
              · by_cases hkw : hasHeaderKeyword l = true
                · simp [hunk_has_real_changes, hpre, hctx, hid, hms, hq, hkw,
                    identityChangeLine, realTranslationChangeLine]
                · by_cases hcont : quoteContentReal l = true
                  · simp [hunk_has_real_changes, hpre, hctx, hid, hms, hq,
                      hkw, hcont, identityChangeLine,
                      realTranslationChangeLine]
                  · simp [hunk_has_real_changes, hpre, hctx, hid, hms, hq,
                      hkw, hcont, identityChangeLine,
                      realTranslationChangeLine]
              · simp [hunk_has_real_changes, hpre, hctx, hid, hms, hq,
                  identityChangeLine, realTranslationChangeLine]

/-- The comment-only test is a universal over the changed lines. -/
theorem hunk_is_comment_only_eq_all :
    ∀ h : List (List Char), hunk_is_comment_only h =
      h.all (fun l => !changedLine l || commentOrBlankLine l) := by
  intro h
  induction h with
  | nil => rfl
  | cons l rest ih =>
      rw [List.all_cons, ← ih]
      by_cases hpre : ['@', '@'] <+: l
      · have hcl : changedLine l = false := by
          simp [changedLine, hpre]
        simp [hunk_is_comment_only, hpre, hcl]
      · cases l with
        | nil => simp [hunk_is_comment_only, changedLine, hpre]
        | cons c content =>
            have hpre2 :
                (['@', '@'] : List Char).isPrefixOf (c :: content) = false
                := by
              rw [Bool.eq_false_iff]
              intro hx
              exact hpre (by simpa using hx)
            by_cases hpm : isPM c = true
            · have hcl : changedLine (c :: content) = true := by
                simp [changedLine, hpre2, hpm]
              by_cases hcb :
                  (startsWithHash content || isBlankStr content) = true
              · simp [hunk_is_comment_only, hpre, hpm, hcl, hcb,
                  commentOrBlankLine]
              · simp [hunk_is_comment_only, hpre, hpm, hcl, hcb,
                  commentOrBlankLine]
            · have hcl : changedLine (c :: content) = false := by
                simp [changedLine, hpre2, hpm]
              simp [hunk_is_comment_only, hpre, hpm, hcl]

theorem mem_filter_hunks_aux :
    ∀ (hs : List (List (List Char))) (acc : List (List (List Char)))
      (h : List (List Char)),
      h ∈ hs.foldl
        (fun acc h2 =>
          if hunk_is_comment_only h2 then acc
          else if hunk_has_real_changes h2 then acc ++ [h2] else acc) acc ↔
        h ∈ acc ∨
          (h ∈ hs ∧ hunk_is_comment_only h = false ∧
            hunk_has_real_changes h = true) := by
  intro hs
  induction hs with
  | nil => intro acc h; simp
  | cons h2 rest ih =>
      intro acc h
      rw [List.foldl_cons]
      by_cases hco : hunk_is_comment_only h2 = true
      · rw [if_pos hco, ih]
        constructor
        · rintro (ha | ⟨hmem, hc1, hc2⟩)
          · exact Or.inl ha
          · exact Or.inr ⟨List.mem_cons_of_mem _ hmem, hc1, hc2⟩
        · rintro (ha | ⟨hmem, hc1, hc2⟩)
          · exact Or.inl ha
          · rcases List.mem_cons.mp hmem with he | he
            · subst he
              rw [hco] at hc1
              simp at hc1
            · exact Or.inr ⟨he, hc1, hc2⟩
      · rw [if_neg hco]
        by_cases hreal : hunk_has_real_changes h2 = true
        · rw [if_pos hreal, ih]
          constructor
          · rintro (ha | ⟨hmem, hc1, hc2⟩)
            · rcases List.mem_append.mp ha with hb | hb
              · exact Or.inl hb
              · simp only [List.mem_singleton] at hb
                subst hb
                exact Or.inr ⟨List.mem_cons_self _ _,
                  Bool.eq_false_iff.mpr hco, hreal⟩
            · exact Or.inr ⟨List.mem_cons_of_mem _ hmem, hc1, hc2⟩
          · rintro (ha | ⟨hmem, hc1, hc2⟩)
            · exact Or.inl (List.mem_append_left _ ha)
            · rcases List.mem_cons.mp hmem with he | he
              · subst he
                exact Or.inl (List.mem_append_right _ (by simp))
              · exact Or.inr ⟨he, hc1, hc2⟩
        · rw [if_neg hreal, ih]
          constructor
          · rintro (ha | ⟨hmem, hc1, hc2⟩)
            · exact Or.inl ha
            · exact Or.inr ⟨List.mem_cons_of_mem _ hmem, hc1, hc2⟩
          · rintro (ha | ⟨hmem, hc1, hc2⟩)
            · exact Or.inl ha
            · rcases List.mem_cons.mp hmem with he | he
              · subst he
                rw [hc2] at hreal
                simp at hreal
              · exact Or.inr ⟨he, hc1, hc2⟩

/-- C4 (confirmed): a hunk is classified real exactly when one of its
lines is a changed identity line (msgctxt or msgid) or a changed
translation-text line (msgstr line or quoted continuation) whose content
is non-empty, not header metadata, and not changed-to-empty; it is
classified comment-only exactly when every changed line is a comment or
blank; and the filter keeps exactly the hunks that are not comment-only
and have a real change, comment-only hunks being dropped without further
examination. -/
theorem hunk_classification :
    (∀ h : List (List Char), hunk_has_real_changes h = true ↔
      ∃ l ∈ h, identityChangeLine l = true ∨
        realTranslationChangeLine l = true) ∧
    (∀ h : List (List Char), hunk_is_comment_only h = true ↔
      ∀ l ∈ h, changedLine l = true → commentOrBlankLine l = true) ∧
    (∀ (hs : List (List (List Char))) (h : List (List Char)),
      h ∈ filter_hunks hs ↔
        h ∈ hs ∧ hunk_is_comment_only h = false ∧
          hunk_has_real_changes h = true) := by
  refine ⟨?_, ?_, ?_⟩
  · intro h
    rw [hunk_has_real_eq_any, List.any_eq_true]
    simp only [Bool.or_eq_true]
  · intro h
    rw [hunk_is_comment_only_eq_all, List.all_eq_true]
    constructor
    · intro hall l hl hch
      have := hall l hl
      rw [hch] at this
      simpa using this
    · intro hall l hl
      by_cases hch : changedLine l = true
      · simp [hch, hall l hl hch]
      · simp [Bool.eq_false_iff.mpr hch]
  · intro hs h
    exact mem_filter_hunks_aux hs [] h |>.trans (by simp)

/-- Counterexample to C7 as stated: the obsolete entry oEmptyCtx has the
same content key ("", "K") as the active entry oNoCtx, so the claim
demands its removal and a rewrite — but the code compares the raw
msgctxt values (some "" versus none), keeps the obsolete duplicate, and
reports no change. -/
theorem obsolete_dedup_counterexample :
    contentKey oEmptyCtx = contentKey oNoCtx ∧
    oNoCtx.obsolete = false ∧
    oEmptyCtx.obsolete = true ∧
    remove_obsolete_duplicates [oNoCtx, oEmptyCtx] =
      ([oNoCtx, oEmptyCtx], false) := by decide
